import Mathlib

/-!
Verification of the poker-solver repository: a shallow embedding of the card
model, hand evaluator, deal oracle, deck operations, fitness functions and
search-kernel steps, together with theorems settling the specification claims.

Cards are 6-bit integers 0..51 with `value = id % 13 + 1` (ace = 1) and
`suit = id / 13`, as in `cards.rs`.  Decks and hands are lists of card ids.
-/

namespace PokerSolver

/-- Card value 1..13 (`Card::into_inner`: `(self.0 % 13) + 1`). -/
def cardValue (c : Nat) : Nat := c % 13 + 1

/-- Card suit 0..3 (`Card::into_inner`: `self.0 / 13`). -/
def cardSuit (c : Nat) : Nat := c / 13

/-- `Card::valid`: the id is at most 51. -/
def validCard (c : Nat) : Prop := c ≤ 51

instance : DecidablePred validCard := fun c => inferInstanceAs (Decidable (c ≤ 51))

/-- Ascending sort on naturals, modelling `sort` / `sort_unstable` on arrays. -/
def sortNat (l : List Nat) : List Nat := List.insertionSort (· ≤ ·) l

/-- A score table entry `(rank, hi)` (`TableEntry` in `precompute.rs`). -/
abbrev TableEntry := Nat × Nat

/-- The `Ord` instance of `TableEntry`: lexicographic on `(rank, hi)`. -/
def entryLe (a b : TableEntry) : Prop := a.1 < b.1 ∨ (a.1 = b.1 ∧ a.2 ≤ b.2)

/-- Strict version of the `TableEntry` order. -/
def entryLt (a b : TableEntry) : Prop := a.1 < b.1 ∨ (a.1 = b.1 ∧ a.2 < b.2)

instance : DecidableRel entryLe := fun a b =>
  inferInstanceAs (Decidable (a.1 < b.1 ∨ (a.1 = b.1 ∧ a.2 ≤ b.2)))

instance : DecidableRel entryLt := fun a b =>
  inferInstanceAs (Decidable (a.1 < b.1 ∨ (a.1 = b.1 ∧ a.2 < b.2)))

/-- `score_five_cards` from `hands.rs`: score a 5-card hand, returning
`(rank, high_card)`.  Values are sorted ascending; the high card is 14 when an
ace is present and the hand is not the wheel `[1,2,3,4,5]` (then 5); flushes,
straights and value multiplicities determine the rank exactly as in the
source's `match`. -/
def scoreFiveCards (cards : List Nat) : TableEntry :=
  let values := sortNat (cards.map cardValue)
  let suits := cards.map cardSuit
  let highCard : Nat :=
    if values.getD 0 0 = 1 then
      if values = [1, 2, 3, 4, 5] then 5 else 14
    else values.getD 4 0
  let isFlush := suits.all (fun s => s = suits.getD 0 0)
  let isStraight :=
    values = [1, 10, 11, 12, 13] ∨
      (values.getD 1 0 = values.getD 0 0 + 1 ∧
       values.getD 2 0 = values.getD 1 0 + 1 ∧
       values.getD 3 0 = values.getD 2 0 + 1 ∧
       values.getD 4 0 = values.getD 3 0 + 1)
  let sortedCounts :=
    List.insertionSort (fun a b : Nat => b ≤ a) (values.dedup.map (fun v => values.count v))
  let c0 := sortedCounts.getD 0 0
  let c1 := sortedCounts.getD 1 0
  let rank : Nat :=
    if isFlush ∧ isStraight then 9
    else if c0 = 4 then 8
    else if c0 = 3 ∧ c1 = 2 then 7
    else if isFlush then 6
    else if isStraight then 5
    else if c0 = 3 then 4
    else if c0 = 2 ∧ c1 = 2 then 3
    else if c0 = 2 then 2
    else 1
  (rank, highCard)

/-- The source's running update in `Hand::score`: replace the best entry when
the new one is strictly better, first by rank then by high card. -/
def betterEntry (best e : TableEntry) : TableEntry :=
  if e.1 > best.1 ∨ (e.1 = best.1 ∧ e.2 > best.2) then e else best

/-- `Hand::score` for a 7-card hand: evaluate all C(7,5) = 21 five-card
subsets and keep the lexicographically largest `(rank, hi)`, starting from
`(0, 0)`. -/
def handScore (cards : List Nat) : TableEntry :=
  ((cards.sublistsLen 5).map scoreFiveCards).foldl betterEntry (0, 0)

/-- Strictly ascending card list (the well-formedness of a `Hand` used as a
table key). -/
def strictlyAscending : List Nat → Bool
  | [] => true
  | [_] => true
  | a :: b :: t => decide (a < b) && strictlyAscending (b :: t)

/-- `ScoreTable::score`: the table maps every strictly increasing valid 7-card
hand to its `Hand::score` entry (spec: `table.score(H) == Hand(H).score()`);
any other key misses, which is fatal in the source (`unwrap`), modelled by
`none`. -/
def tableScore? (h : List Nat) : Option TableEntry :=
  if h.length = 7 ∧ strictlyAscending h ∧ ∀ c ∈ h, c ≤ 51 then some (handScore h)
  else none

/-- A dealt round: each player's two hole cards plus the five community
cards (`Game` in `game.rs`). -/
structure Game where
  players : List (Nat × Nat)
  common : List Nat

/-- Modelled from the spec: `players_score(i, table)` builds the player's
7-card hand as hole cards ∪ community, sorts it, and performs one table
lookup.  The body of `Game::players_score` in `game.rs` instead builds
21 five-card hands and does not type-check (see the claim on that function);
the spec fixes the canonical single-lookup semantics, and the lookup is total
here because the table scores every sorted valid 7-card hand. -/
def playersScore (g : Game) (i : Nat) : TableEntry :=
  let p := g.players.getD i (0, 0)
  handScore (sortNat ([p.1, p.2] ++ g.common))

/-- Rust's `Iterator::max` on entries: the last maximum under the
`TableEntry` order; `none` on an empty iterator. -/
def maxEntry? (es : List TableEntry) : Option TableEntry :=
  es.foldl
    (fun acc e =>
      match acc with
      | none => some e
      | some m => if entryLe m e then some e else some m)
    none

/-- The body of `Game::players_score` as written in `game.rs`: enumerate the
(2 hole + 3 community), (1 hole + 4 community) and (0 hole + 5 community)
five-card combinations, look each up in the table, and take the maximum.
Each lookup key has 5 cards while the table is keyed by 7-card hands, so
every lookup misses. -/
def playersScoreCode (g : Game) (i : Nat) : Option TableEntry :=
  let p := g.players.getD i (0, 0)
  let case1 := (g.common.sublistsLen 3).map (fun c3 => sortNat ([p.1, p.2] ++ c3))
  let case2 :=
    ([p.1, p.2].map (fun pc => (g.common.sublistsLen 4).map (fun c4 => sortNat (pc :: c4)))).flatten
  let case3 := [sortNat g.common]
  ((case1 ++ case2 ++ case3).mapM tableScore?).bind maxEntry?

/-- The fold of Rust's `Iterator::max_by_key`: keep the new element whenever
its key is greater *or equal*, so of equally-maximal elements the *last* one
is returned. -/
def maxByLastAux (f : Nat → TableEntry) (acc : Option Nat) (i : Nat) : Option Nat :=
  match acc with
  | none => some i
  | some j => if entryLe (f j) (f i) then some i else some j

/-- `Game::winning_player`: `max_by_key` of `players_score` over player
indices `0..n`. -/
def winningPlayerIdx? (g : Game) : Option Nat :=
  (List.range g.players.length).foldl (maxByLastAux (playersScore g)) none

/-- `Game::dealer_wins`: the winning player is player 0. -/
def dealerWins (g : Game) : Prop := winningPlayerIdx? g = some 0

instance (g : Game) : Decidable (dealerWins g) :=
  inferInstanceAs (Decidable (winningPlayerIdx? g = some 0))

/-- `deal_a_round`: two hole-card passes in seat order, then burn, flop (3),
burn, turn, burn, river.  `Deck::draw` pops from the *end* of the deck, so
the cards drawn are the reversed deck's prefix in order. -/
def dealARound (n : Nat) (deck : List Nat) : Game :=
  let r := deck.reverse
  { players := (List.range n).map (fun p => (r.getD p 0, r.getD (n + p) 0)),
    common :=
      [r.getD (2 * n + 1) 0, r.getD (2 * n + 2) 0, r.getD (2 * n + 3) 0,
       r.getD (2 * n + 5) 0, r.getD (2 * n + 7) 0] }

/-- `Deck::cut`: move the first `pos` cards to the back. -/
def cut (deck : List Nat) (pos : Nat) : List Nat := deck.drop pos ++ deck.take pos

/-- `Deck::draw` with the panic modelled: `Vec::pop` takes the last card and
returns `None` on an empty deck, where `unwrap` is fatal. -/
def draw? (deck : List Nat) : Option (Nat × List Nat) :=
  deck.getLast?.map (fun c => (c, deck.dropLast))

/-- A sequence of `k` fatal draws, returning the cards in draw order and the
remaining deck; `none` as soon as one `pop().unwrap()` panics. -/
def drawSeq? : Nat → List Nat → Option (List Nat × List Nat)
  | 0, deck => some ([], deck)
  | Nat.succ k, deck =>
    (draw? deck).bind fun cd =>
      (drawSeq? k cd.2).map fun csd => (cd.1 :: csd.1, csd.2)

/-- `deal_a_round` with `Deck::draw`'s deck-exhaustion panic modelled: the
two hole-card passes draw `2·n` cards, then burn/flop/burn/turn/burn/river
draw 8 more; `none` models the fatal `pop().unwrap()` on a deck holding
fewer than `2·n + 8` cards. -/
def dealARound? (n : Nat) (deck : List Nat) : Option Game :=
  (drawSeq? (2 * n) deck).bind fun hole =>
    (drawSeq? 8 hole.2).map fun rest =>
      { players := (List.range n).map (fun p => (hole.1.getD p 0, hole.1.getD (n + p) 0)),
        common := [rest.1.getD 1 0, rest.1.getD 2 0, rest.1.getD 3 0,
                   rest.1.getD 5 0, rest.1.getD 7 0] }

/-- `Deck::cut` with the panic modelled: `Vec::drain(0..pos)` is fatal when
`pos` exceeds the deck length. -/
def cut? (deck : List Nat) (pos : Nat) : Option (List Nat) :=
  if pos ≤ deck.length then some (deck.drop pos ++ deck.take pos) else none

/-- `dealer_wins_game`: deal a round from the (already cut) deck and ask
whether the dealer wins. -/
def dealerWinsGame (n : Nat) (deck : List Nat) : Prop := dealerWins (dealARound n deck)

instance (n : Nat) (deck : List Nat) : Decidable (dealerWinsGame n deck) :=
  inferInstanceAs (Decidable (dealerWins (dealARound n deck)))

/-- `num_wins_total`: dealer wins counted over all 52 cuts. -/
def numWinsTotal (n : Nat) (deck : List Nat) : Nat :=
  ((List.range 52).filter (fun k => decide (dealerWinsGame n (cut deck k)))).length

/-- `num_realistic_wins`: dealer wins counted over cuts 5..46. -/
def numRealisticWins (n : Nat) (deck : List Nat) : Nat :=
  ((List.range' 5 42).filter (fun k => decide (dealerWinsGame n (cut deck k)))).length

/-- `num_wins`: dispatch on the `real` flag. -/
def numWins (n : Nat) (deck : List Nat) (real : Bool) : Nat :=
  if real then numRealisticWins n deck else numWinsTotal n deck

/-- `max_wins`: 42 in realistic mode, else 52. -/
def maxWins (real : Bool) : Nat := if real then 52 - 10 else 52

/-- Modelled from the spec: `TableEntry::to_score`, the injective
order-preserving projection `rank · 16 + high` used by `hybrid_score` and
`position_margin`; the method is absent from `src/` (only its call sites are
present). -/
def toScore (e : TableEntry) : Int := e.1 * 16 + e.2

/-- The best opponent entry `(1..num_players).map(players_score).max()`;
`none` models the fatal `unwrap` on an empty opponent range. -/
def bestOpponentEntry? (g : Game) (n : Nat) : Option TableEntry :=
  maxEntry? ((List.range' 1 (n - 1)).map (playersScore g))

/-- The margin `score(dealer) − max_{i>0} score(i)` at one cut position, as
computed identically inside `hybrid_score` and `position_margin`; `none`
models the panic when there are no opponents. -/
def cutMargin? (n : Nat) (deck : List Nat) (cutPos : Nat) : Option Int :=
  let g := dealARound n (cut deck cutPos)
  (bestOpponentEntry? g n).map (fun b => toScore (playersScore g 0) - toScore b)

/-- `position_margin` with every fatal path modelled: cut the deck
(`drain` panics out of range), deal a round (`draw` panics on an exhausted
deck), then the margin (the `unwrap` over the opponent range panics when
there are no opponents). -/
def positionMargin? (n : Nat) (deck : List Nat) (cutPos : Nat) : Option Int :=
  (cut? deck cutPos).bind fun cutDeck =>
    (dealARound? n cutDeck).bind fun g =>
      (bestOpponentEntry? g n).map fun b => toScore (playersScore g 0) - toScore b

/-- The margin value at a cut (the payload of `cutMargin?`, defaulting to 0);
used to state the wins/margins decomposition of `hybrid_score`. -/
def marginAt (n : Nat) (deck : List Nat) (k : Nat) : Int :=
  (cutMargin? n deck k).getD 0

/-- `hybrid_score`: over all cut positions, count strictly positive margins
as wins and sum all margins; the result is `wins · 100000 + Σ margin`.  All
quantities are integers that `f64` represents exactly, so the `f64`
arithmetic of the source is modelled by exact integers. -/
def hybridScore? (n : Nat) (deck : List Nat) (real : Bool) : Option Int :=
  let positions := if real then List.range' 5 42 else List.range 52
  (positions.mapM (cutMargin? n deck)).map
    (fun ms => (ms.countP (fun m => decide (0 < m)) : Int) * 100000 + ms.sum)

/-- `hybrid_score` with every fatal path modelled: the per-cut computation
of `positionMargin?` (cut, deal, opponent unwrap) over the cut positions;
`hybridScore?` is its restriction to the panic-free path (they are proved
to agree whenever the deck has 52 cards and the deal fits in it). -/
def hybridScoreFull? (n : Nat) (deck : List Nat) (real : Bool) : Option Int :=
  let positions := if real then List.range' 5 42 else List.range 52
  (positions.mapM (positionMargin? n deck)).map
    (fun ms => (ms.countP (fun m => decide (0 < m)) : Int) * 100000 + ms.sum)

/-- A deck invariant: 52 cards, no duplicates, no gaps (a permutation of
`{0..51}`). -/
def IsPermDeck (d : List Nat) : Prop := d.length = 52 ∧ d.Nodup ∧ ∀ c ∈ d, c ≤ 51

instance : DecidablePred IsPermDeck := fun d =>
  inferInstanceAs (Decidable (d.length = 52 ∧ d.Nodup ∧ ∀ c ∈ d, c ≤ 51))

/-- `Deck::new_deck_order`: value-major, suit-minor enumeration of the 52
cards (`Card::new(value, suit) = (value − 1) + 13 · suit`). -/
def newDeckOrder : List Nat :=
  ((List.range' 1 13).map (fun v => (List.range 4).map (fun s => v - 1 + 13 * s))).flatten

/-- `Vec::swap` on a deck; the source asserts the indices are in bounds, and
all in-repo call sites are (guarded by the mutation generators and the
`BlockSwap` bounds check). -/
def listSwap (i j : Nat) (d : List Nat) : List Nat :=
  if i < d.length ∧ j < d.length then (d.set i (d.getD j 0)).set j (d.getD i 0) else d

/-- The `BlockSwap` body: `for i in 0..len { deck.swap(start1 + i, start2 + i) }`,
performed in increasing order of `i`. -/
def blockSwapLoop (a b : Nat) (d : List Nat) : Nat → List Nat
  | 0 => d
  | n + 1 => listSwap (a + n) (b + n) (blockSwapLoop a b d n)

/-- The `Scramble` body: Fisher–Yates on the segment, `for i in s..e
{ deck.swap(i, rng(i, e)) }`; the RNG is abstracted as the draw function
`rng lo hi ∈ [lo, hi)`. -/
def scrambleLoop (rng : Nat → Nat → Nat) (e : Nat) (i : Nat) (d : List Nat) : List Nat :=
  if i < e then scrambleLoop rng e (i + 1) (listSwap i (rng i e) d) else d
termination_by e - i

/-- The five mutation kinds of `deck.rs`. -/
inductive AdvancedMutation where
  | swap (i j : Nat)
  | blockSwap (start1 start2 len : Nat)
  | reversal (s e : Nat)
  | rotation (pos : Nat)
  | scramble (s e : Nat)

/-- `AdvancedMutation::apply`.  `BlockSwap` returns the deck unchanged when a
segment exceeds the 52-card bound or the two start positions are equal;
`Reversal` and `Scramble` early-return on bad ranges; `Rotation` is `cut`. -/
def applyMutation (m : AdvancedMutation) (deck : List Nat) (rng : Nat → Nat → Nat) :
    List Nat :=
  match m with
  | .swap i j => listSwap i j deck
  | .blockSwap s1 s2 len =>
    if s1 + len > 52 ∨ s2 + len > 52 ∨ s1 = s2 then deck else blockSwapLoop s1 s2 deck len
  | .reversal s e =>
    if s < e ∧ e ≤ 52 then deck.take s ++ ((deck.drop s).take (e - s)).reverse ++ deck.drop e
    else deck
  | .rotation pos => cut deck pos
  | .scramble s e => if s < e ∧ e ≤ 52 then scrambleLoop rng e s deck else deck

/-- The running state of `local_search_sa`: current deck and hybrid score,
best deck / hybrid score / win count seen, and whether the early perfect-deck
return has fired (the cooling temperature only biases which traces occur and
is carried by the trace abstraction). -/
structure SAState where
  currentDeck : List Nat
  currentScore : Int
  bestDeck : List Nat
  bestScore : Int
  bestWins : Nat
  finished : Bool

/-- One iteration of `local_search_sa`.  The iteration's randomness is
abstracted as the mutated candidate deck together with the Boolean outcome of
the `random_val < probability` draw; an improvement in hybrid score is always
accepted, an accepted improvement over the best updates the best triple, and
reaching `max_wins` freezes the state (the source returns early). -/
def saStep (n : Nat) (real : Bool) (st : SAState) (input : List Nat × Bool) :
    Option SAState :=
  if st.finished then some st
  else
    match hybridScore? n input.1 real with
    | none => none
    | some newScore =>
      if newScore > st.currentScore ∨ input.2 then
        if newScore > st.bestScore then
          let bw := numWins n input.1 real
          some { currentDeck := input.1, currentScore := newScore, bestDeck := input.1,
                 bestScore := newScore, bestWins := bw, finished := decide (bw = maxWins real) }
        else some { st with currentDeck := input.1, currentScore := newScore }
      else some st

/-- `local_search_sa`: initialise from the starting deck, run the iteration
step over the trace of mutation/acceptance outcomes, and return the best deck
seen with its win count.  `none` models a panic inside `hybrid_score`. -/
def localSearchSA? (n : Nat) (real : Bool) (start : List Nat)
    (trace : List (List Nat × Bool)) : Option (List Nat × Nat) :=
  match hybridScore? n start real with
  | none => none
  | some s0 =>
    (trace.foldlM (saStep n real)
        { currentDeck := start, currentScore := s0, bestDeck := start, bestScore := s0,
          bestWins := numWins n start real, finished := false }).map
      (fun st => (st.bestDeck, st.bestWins))

/-- `hamming_distance`: the number of positions at which two decks differ. -/
def hamming (d1 d2 : List Nat) : Nat :=
  ((d1.zip d2).filter (fun p => p.1 != p.2)).length

/-- `calculate_diversity`: average Hamming distance from a deck to every deck
of the population (exact rational model of the `f32` average). -/
def calculateDiversity (deck : List Nat) (population : List (List Nat × Nat)) : ℚ :=
  if population = [] then 0
  else ((population.map (fun other => (hamming deck other.1 : ℚ))).sum) / population.length

/-- `diversity_fitness`: `score + diversity_weight · diversity`. -/
def diversityFitness (score : Nat) (diversity weight : ℚ) : ℚ :=
  score + weight * diversity

/-- One selection phase of `genetic_search`: the new generation is the top-3
elites, the crossover children, the SA-refined mutation children, and the
rest of the previous population; it is sorted by diversity-adjusted fitness
(weight 1/2 beyond the stagnation threshold 30, else 1/10) when stagnation
exceeds half the threshold and by raw fitness otherwise, then truncated to
the population size 30. -/
def nextGeneration (pop crossChildren mutChildren : List (List Nat × Nat))
    (stagnation : Nat) : List (List Nat × Nat) :=
  let newGen := pop.take 3 ++ crossChildren ++ mutChildren ++ pop.drop 3
  let w : ℚ := if stagnation > 30 then 1 / 2 else 1 / 10
  let sorted :=
    if stagnation > 15 then
      ((newGen.map
            (fun x => (x.1, x.2, diversityFitness x.2 (calculateDiversity x.1 newGen) w))).insertionSort
          (fun a b => b.2.2 ≤ a.2.2)).map
        (fun t => (t.1, t.2.1))
    else (newGen.insertionSort (fun a b => a.2 ≤ b.2)).reverse
  sorted.take 30

/-- The best raw fitness (win count) present in a scored population. -/
def bestPopScore (pop : List (List Nat × Nat)) : Nat :=
  (pop.map (fun x => x.2)).foldr max 0

/-- The inner `while` of the crossover fill loops: advance `parent2_idx` past
cards already placed in the child, stopping at the deck size. -/
def skipDups (child : List (Option Nat)) (p2 : List Nat) (p : Nat) : Nat :=
  if h : p < p2.length then
    if some (p2.getD p 0) ∈ child then skipDups child p2 (p + 1) else p
  else p
termination_by p2.length - p

/-- The shared fill phase of `Deck::crossover` and `Deck::uniform_crossover`:
walk the positions in order and fill each empty slot with the next card of
`parent2` that is not yet in the child (the source bounds both scans by the
deck size; parents have equal length 52 under the deck invariant). -/
def fillFromParent (p2 : List Nat) : List Nat → Nat → List (Option Nat) → List (Option Nat)
  | [], _, child => child
  | i :: rest, p, child =>
    match child.getD i none with
    | some _ => fillFromParent p2 rest p child
    | none =>
      let q := skipDups child p2 p
      if q < p2.length then fillFromParent p2 rest (q + 1) (child.set i (some (p2.getD q 0)))
      else fillFromParent p2 rest q child

/-- The final `child.into_iter().map(|c| c.unwrap()).collect()`: `none`
models the panic on an unfilled position. -/
def unwrapAll : List (Option Nat) → Option (List Nat)
  | [] => some []
  | some x :: t => (unwrapAll t).map (x :: ·)
  | none :: _ => none

/-- The partially filled child before the fill phase: position `i` holds
`parent1[i]` exactly when the mask selects it. -/
def maskedInit (mask : Nat → Bool) (p1 : List Nat) : List (Option Nat) :=
  (List.range p1.length).map (fun i => if mask i then some (p1.getD i 0) else none)

/-- `Deck::crossover` (two-point order crossover): order the two random
points, seed the child with `parent1[s..e]`, and fill the rest from
`parent2` in order, skipping duplicates. -/
def crossover (point1 point2 : Nat) (p1 p2 : List Nat) : Option (List Nat) :=
  let s := min point1 point2
  let e := max point1 point2
  unwrapAll
    (fillFromParent p2 (List.range p1.length) 0
      (maskedInit (fun i => decide (s ≤ i ∧ i < e)) p1))

/-- `Deck::uniform_crossover`: seed the child with `parent1[i]` at the
positions where the coin flip chose parent 1, and fill the rest from
`parent2` in order, skipping duplicates. -/
def uniformCrossover (coins : Nat → Bool) (p1 p2 : List Nat) : Option (List Nat) :=
  unwrapAll (fillFromParent p2 (List.range p1.length) 0 (maskedInit coins p1))

/-- The invariant of a partially built crossover child: 52 slots, no card
placed twice, and only valid cards placed. -/
def ChildInv (child : List (Option Nat)) : Prop :=
  child.length = 52 ∧
  (∀ i1 i2 v, i1 < 52 → i2 < 52 → i1 ≠ i2 → child.getD i1 none = some v →
    child.getD i2 none = some v → False) ∧
  (∀ i v, i < 52 → child.getD i none = some v → v ≤ 51)

/-- The scan invariant of the fill loops: every `parent2` card before the
scan index is already placed in the child. -/
def ScanInv (child : List (Option Nat)) (p2 : List Nat) (p : Nat) : Prop :=
  ∀ j, j < p → some (p2.getD j 0) ∈ child

/-! Concrete games and populations used by the scenario claims. -/

/-- Spec scenario 1: community `{4♣, 3♦, 7♠, 5♣, J♠}`, dealer hole
`{8♥, 7♦}`, opponent hole `{K♥, 6♦}` (card ids). -/
def gameScenario1 : Game :=
  { players := [(33, 45), (38, 44)], common := [3, 41, 19, 4, 23] }

/-- A two-player round whose players tie: community `{2♦, 4♠, 9♣, J♦, K♠}`,
dealer hole `{3♥, 5♦}`, opponent hole `{3♠, 6♥}` — both best hands are
king-high card hands `(1, 13)`. -/
def gameTie : Game :=
  { players := [(28, 43), (15, 31)], common := [40, 16, 8, 49, 25] }

/-- A stagnating GA population: three copies of the canonical deck at fitness
40 (the elites) followed by 27 pairwise-distant rotations at fitness 39. -/
def popStagnant : List (List Nat × Nat) :=
  List.replicate 3 (newDeckOrder, 40) ++
    (List.range' 1 27).map (fun r => (cut newDeckOrder r, 39))

/-- Fifteen SA-refined mutation children for the stagnating population:
further pairwise-distant rotations at fitness 39. -/
def mutStagnant : List (List Nat × Nat) :=
  (List.range' 28 15).map (fun r => (cut newDeckOrder r, 39))

/-- The combined new generation built by the selection phase for the
stagnating population with no crossover children: elites, mutation
children, rest of the population (45 members). -/
def newGenStagnant : List (List Nat × Nat) :=
  popStagnant.take 3 ++ ([] : List (List Nat × Nat)) ++ mutStagnant ++ popStagnant.drop 3

/-! ## Order lemmas for `TableEntry` -/

theorem entryLe_refl (a : TableEntry) : entryLe a a := Or.inr ⟨rfl, le_refl _⟩

theorem entryLe_trans {a b c : TableEntry} (h1 : entryLe a b) (h2 : entryLe b c) :
    entryLe a c := by
  unfold entryLe at *
  omega

theorem entryLt_of_not_entryLe {a b : TableEntry} (h : ¬ entryLe a b) : entryLt b a := by
  unfold entryLe at h
  unfold entryLt
  omega

theorem entryLe_of_entryLt {a b : TableEntry} (h : entryLt a b) : entryLe a b := by
  unfold entryLt at h
  unfold entryLe
  omega

theorem entryLt_irrefl (a : TableEntry) : ¬ entryLt a a := by
  unfold entryLt
  omega

theorem entryLe_antisymm {a b : TableEntry} (h1 : entryLe a b) (h2 : entryLe b a) :
    a = b := by
  unfold entryLe at *
  obtain ⟨a1, a2⟩ := a
  obtain ⟨b1, b2⟩ := b
  simp_all only [Prod.mk.injEq]
  omega

/-! ## C9: cutting is a cyclic rotation inverted by the complementary cut -/

/-- C9: for every 52-card deck and every cut position `k ≤ 51`,
`D.cut(k).cut(52 − k) = D`, and `D.cut(0) = D`. -/
theorem C9_cut_roundtrip (d : List Nat) (hlen : d.length = 52) (k : Nat) (hk : k ≤ 51) :
    cut (cut d k) (52 - k) = d ∧ cut d 0 = d := by
  have hcut : ∀ (l : List Nat) (m : Nat), m ≤ l.length → cut l m = l.rotate m :=
    fun l m hm => (List.rotate_eq_drop_append_take hm).symm
  constructor
  · rw [hcut d k (by omega),
      hcut (d.rotate k) (52 - k) (by rw [List.length_rotate]; omega),
      List.rotate_rotate]
    have h52 : k + (52 - k) = 52 := by omega
    rw [h52, ← hlen, List.rotate_length]
  · simp [cut]

/-- C9 witness: the canonical deck at cut 17 (spec scenario 5). -/
theorem C9_cut_roundtrip_witness :
    (newDeckOrder.length = 52 ∧ 17 ≤ 51) ∧
      (cut (cut newDeckOrder 17) (52 - 17) = newDeckOrder ∧ cut newDeckOrder 0 = newDeckOrder) :=
  ⟨by decide, C9_cut_roundtrip newDeckOrder (by decide) 17 (by decide)⟩

/-! ## C1: `players_score` does not perform the single 7-card lookup -/

set_option maxRecDepth 10000 in
/-- C1: evaluating the `players_score` body of `game.rs` on spec scenario 1
is fatal — it looks 5-card keys up in the 7-card table, and every lookup
misses — whereas the claimed single lookup of the sorted 7-card hand
(hole ∪ community) succeeds and returns the canonical 7-card score. -/
theorem C1_players_score_code_fatal :
    playersScoreCode gameScenario1 0 = none ∧
      tableScore? (sortNat ([33, 45] ++ gameScenario1.common)) =
        some (playersScore gameScenario1 0) := by
  decide

/-! ## C3: spec scenario 1 -/

set_option maxRecDepth 10000 in
/-- C3 counterexample: in spec scenario 1 the dealer's score is not
`(rank 2, high 7)` — the best one-pair subset keeps the jack kicker, so the
high card is 11. -/
theorem C3_scoreA_counterexample : playersScore gameScenario1 0 ≠ (2, 7) := by
  decide

set_option maxRecDepth 10000 in
/-- C3 (amended): in spec scenario 1 the dealer scores `(2, 11)`, the
opponent scores `(5, 7)`, and the opponent (player 1) is the winning
player. -/
theorem C3_scenario_scores :
    playersScore gameScenario1 0 = (2, 11) ∧ playersScore gameScenario1 1 = (5, 7) ∧
      winningPlayerIdx? gameScenario1 = some 1 := by
  decide

/-! ## C2: tie-breaking in `winning_player` -/

set_option maxRecDepth 10000 in
/-- C2 counterexample: a two-player round in which both players score
`(1, 13)`; `winning_player` returns player 1, not the lowest tied index 0,
and the dealer does not win despite being part of the tie for the maximum. -/
theorem C2_tie_goes_to_last :
    playersScore gameTie 0 = playersScore gameTie 1 ∧
      winningPlayerIdx? gameTie = some 1 ∧ ¬ dealerWins gameTie := by
  decide

/-- Characterisation of the `max_by_key` fold over `0..n`: it returns an
index of maximal key, and of equally-maximal indices the largest one. -/
theorem maxByLast_range_spec (f : Nat → TableEntry) (n : Nat) (hn : 0 < n) :
    ∃ w, (List.range n).foldl (maxByLastAux f) none = some w ∧ w < n ∧
      (∀ i, i < n → entryLe (f i) (f w)) ∧ ∀ i, i < n → f i = f w → i ≤ w := by
  induction n with
  | zero => omega
  | succ m ih =>
    rw [List.range_succ, List.foldl_append, List.foldl_cons, List.foldl_nil]
    rcases Nat.eq_zero_or_pos m with hm | hm
    · subst hm
      exact ⟨0, rfl, by omega, fun i hi => by
        interval_cases i
        exact entryLe_refl _, fun i hi _ => by omega⟩
    · obtain ⟨w, hw, hwlt, hmax, htie⟩ := ih hm
      rw [hw]
      simp only [maxByLastAux]
      by_cases hle : entryLe (f w) (f m)
      · rw [if_pos hle]
        refine ⟨m, rfl, by omega, fun i hi => ?_, fun i hi heq => by omega⟩
        rcases Nat.lt_or_ge i m with h | h
        · exact entryLe_trans (hmax i h) hle
        · have : i = m := by omega
          subst this
          exact entryLe_refl _
      · rw [if_neg hle]
        have hlt := entryLt_of_not_entryLe hle
        refine ⟨w, rfl, by omega, fun i hi => ?_, fun i hi heq => ?_⟩
        · rcases Nat.lt_or_ge i m with h | h
          · exact hmax i h
          · have : i = m := by omega
            subst this
            exact entryLe_of_entryLt hlt
        · rcases Nat.lt_or_ge i m with h | h
          · exact htie i h heq
          · have : i = m := by omega
            subst this
            rw [heq] at hlt
            exact absurd hlt (entryLt_irrefl _)

/-- C2 (amended): for every round with at least one player,
`winning_player` returns an index of maximal `(rank, high)` score under the
lexicographic order; of equally-maximal players it returns the *largest*
index (Rust's `max_by_key` keeps the last maximum), so a tie for the maximum
that includes player 0 and any other player makes `dealer_wins` false. -/
theorem C2_winning_player_last_max (g : Game) (h : g.players ≠ []) :
    ∃ w, winningPlayerIdx? g = some w ∧ w < g.players.length ∧
      (∀ i, i < g.players.length → entryLe (playersScore g i) (playersScore g w)) ∧
      ∀ i, i < g.players.length → playersScore g i = playersScore g w → i ≤ w := by
  have hn : 0 < g.players.length := List.length_pos.mpr h
  exact maxByLast_range_spec (playersScore g) g.players.length hn

set_option maxRecDepth 10000 in
/-- C2 witness: the spec scenario 1 round. -/
theorem C2_winning_player_last_max_witness :
    gameScenario1.players ≠ [] ∧
      ∃ w, winningPlayerIdx? gameScenario1 = some w ∧ w < gameScenario1.players.length ∧
        (∀ i, i < gameScenario1.players.length →
          entryLe (playersScore gameScenario1 i) (playersScore gameScenario1 w)) ∧
        ∀ i, i < gameScenario1.players.length →
          playersScore gameScenario1 i = playersScore gameScenario1 w → i ≤ w :=
  ⟨by decide, C2_winning_player_last_max gameScenario1 (by decide)⟩

/-! ## C5: `BlockSwap` applies to overlapping segments -/

/-- C5 counterexample: `BlockSwap(0, 1, 2)` addresses the overlapping
in-bounds segments `[0, 2)` and `[1, 3)`, and applying it to the canonical
deck is not a no-op. -/
theorem C5_overlap_not_noop :
    (0 + 2 ≤ 52 ∧ 1 + 2 ≤ 52 ∧ max 0 1 < min (0 + 2) (1 + 2)) ∧
      applyMutation (.blockSwap 0 1 2) newDeckOrder (fun _ _ => 0) ≠ newDeckOrder := by
  decide


/-- `listSwap` preserves length. -/
theorem listSwap_length (i j : Nat) (d : List Nat) : (listSwap i j d).length = d.length := by
  unfold listSwap
  split
  · simp
  · rfl

/-- Pointwise description of an in-bounds `listSwap`. -/
theorem listSwap_getD (i j : Nat) (d : List Nat) (hi : i < d.length) (hj : j < d.length)
    (k : Nat) :
    (listSwap i j d).getD k 0 =
      if k = j then d.getD i 0 else if k = i then d.getD j 0 else d.getD k 0 := by
  unfold listSwap
  rw [if_pos ⟨hi, hj⟩]
  simp only [List.getD_eq_getElem?_getD, List.getElem?_set, List.length_set]
  by_cases hkj : k = j
  · subst hkj
    simp [hj, hi, List.getElem?_eq_getElem]
  · rw [if_neg hkj, if_neg (fun h => hkj h.symm)]
    by_cases hki : k = i
    · subst hki
      simp [hi, hj, List.getElem?_eq_getElem]
    · rw [if_neg hki, if_neg (fun h => hki h.symm)]

/-- The sequential elementwise swaps of `BlockSwap` realise the clean block
swap when the two segments are in bounds and disjoint. -/
theorem blockSwapLoop_spec (a b len : Nat) (d : List Nat)
    (ha : a + len ≤ d.length) (hb : b + len ≤ d.length)
    (hdisj : a + len ≤ b ∨ b + len ≤ a) :
    ∀ n, n ≤ len →
      (blockSwapLoop a b d n).length = d.length ∧
      (∀ i, i < n → (blockSwapLoop a b d n).getD (a + i) 0 = d.getD (b + i) 0 ∧
        (blockSwapLoop a b d n).getD (b + i) 0 = d.getD (a + i) 0) ∧
      (∀ j, (j < a ∨ a + n ≤ j) → (j < b ∨ b + n ≤ j) →
        (blockSwapLoop a b d n).getD j 0 = d.getD j 0) := by
  intro n
  induction n with
  | zero => exact fun _ => ⟨rfl, fun i hi => by omega, fun j hja hjb => rfl⟩
  | succ m ih =>
    intro hm1
    obtain ⟨ihlen, ihseg, ihout⟩ := ih (by omega)
    have han : a + m < (blockSwapLoop a b d m).length := by omega
    have hbn : b + m < (blockSwapLoop a b d m).length := by omega
    have hstep : ∀ k, (blockSwapLoop a b d (m + 1)).getD k 0 =
        if k = b + m then (blockSwapLoop a b d m).getD (a + m) 0
        else if k = a + m then (blockSwapLoop a b d m).getD (b + m) 0
        else (blockSwapLoop a b d m).getD k 0 := by
      intro k
      show (listSwap (a + m) (b + m) (blockSwapLoop a b d m)).getD k 0 = _
      rw [listSwap_getD _ _ _ han hbn]
    have hram : (blockSwapLoop a b d m).getD (a + m) 0 = d.getD (a + m) 0 :=
      ihout (a + m) (by omega) (by omega)
    have hrbm : (blockSwapLoop a b d m).getD (b + m) 0 = d.getD (b + m) 0 :=
      ihout (b + m) (by omega) (by omega)
    have hlen1 : (blockSwapLoop a b d (m + 1)).length = d.length := by
      show (listSwap (a + m) (b + m) (blockSwapLoop a b d m)).length = _
      rw [listSwap_length, ihlen]
    refine ⟨hlen1, fun i hi => ?_, fun j hja hjb => ?_⟩
    · rcases Nat.lt_or_ge i m with him | him
      · constructor
        · rw [hstep, if_neg (by omega), if_neg (by omega)]
          exact (ihseg i him).1
        · rw [hstep, if_neg (by omega), if_neg (by omega)]
          exact (ihseg i him).2
      · have : i = m := by omega
        subst this
        constructor
        · rw [hstep, if_neg (by omega), if_pos rfl, hrbm]
        · rw [hstep, if_pos rfl, hram]
    · rw [hstep, if_neg (by omega), if_neg (by omega)]
      exact ihout j (by omega) (by omega)

/-- C5 (amended): `BlockSwap(a, b, len)` on a 52-card deck is a no-op
exactly under the code's guard (a segment exceeds bound 52, or `a = b`);
for in-bounds *non-overlapping* segments with `a ≠ b` the two segments are
cleanly swapped — position `a+i` receives the card of `b+i` and vice versa
for every `i < len`, and every position outside both segments is
unchanged.  (Overlapping in-bounds segments with `a ≠ b` are *not* a no-op,
as the counterexample shows.) -/
theorem C5_blockswap_guard_and_disjoint_swap (d : List Nat) (hlen : d.length = 52)
    (a b len : Nat) (rng : Nat → Nat → Nat) :
    (a + len > 52 ∨ b + len > 52 ∨ a = b →
      applyMutation (.blockSwap a b len) d rng = d) ∧
    (a + len ≤ 52 → b + len ≤ 52 → a ≠ b → (a + len ≤ b ∨ b + len ≤ a) →
      (∀ i, i < len →
        (applyMutation (.blockSwap a b len) d rng).getD (a + i) 0 = d.getD (b + i) 0 ∧
        (applyMutation (.blockSwap a b len) d rng).getD (b + i) 0 = d.getD (a + i) 0) ∧
      ∀ j, (j < a ∨ a + len ≤ j) → (j < b ∨ b + len ≤ j) →
        (applyMutation (.blockSwap a b len) d rng).getD j 0 = d.getD j 0) := by
  constructor
  · intro h
    simp only [applyMutation]
    rw [if_pos h]
  · intro ha hb hne hdisj
    have hguard : ¬ (a + len > 52 ∨ b + len > 52 ∨ a = b) := by
      push_neg
      exact ⟨by omega, by omega, hne⟩
    simp only [applyMutation]
    rw [if_neg hguard]
    obtain ⟨_, hseg, hout⟩ :=
      blockSwapLoop_spec a b len d (by omega) (by omega) hdisj len (le_refl len)
    exact ⟨hseg, hout⟩

/-- C5 witness: swapping the disjoint segments `[10, 12)` and `[30, 32)` of
the canonical deck. -/
theorem C5_blockswap_witness :
    newDeckOrder.length = 52 ∧
      ((10 + 2 > 52 ∨ 30 + 2 > 52 ∨ 10 = 30 →
        applyMutation (.blockSwap 10 30 2) newDeckOrder (fun _ _ => 0) = newDeckOrder) ∧
      (10 + 2 ≤ 52 → 30 + 2 ≤ 52 → 10 ≠ 30 → (10 + 2 ≤ 30 ∨ 30 + 2 ≤ 10) →
        (∀ i, i < 2 →
          (applyMutation (.blockSwap 10 30 2) newDeckOrder (fun _ _ => 0)).getD (10 + i) 0 =
            newDeckOrder.getD (30 + i) 0 ∧
          (applyMutation (.blockSwap 10 30 2) newDeckOrder (fun _ _ => 0)).getD (30 + i) 0 =
            newDeckOrder.getD (10 + i) 0) ∧
        ∀ j, (j < 10 ∨ 10 + 2 ≤ j) → (j < 30 ∨ 30 + 2 ≤ j) →
          (applyMutation (.blockSwap 10 30 2) newDeckOrder (fun _ _ => 0)).getD j 0 =
            newDeckOrder.getD j 0)) :=
  ⟨by decide, C5_blockswap_guard_and_disjoint_swap newDeckOrder (by decide) 10 30 2 (fun _ _ => 0)⟩


/-! ## C4: the high-card rule of the 5-card evaluator, and royal hands -/

theorem entryLe_betterEntry_left (best e : TableEntry) : entryLe best (betterEntry best e) := by
  unfold betterEntry
  split_ifs with h
  · unfold entryLe
    omega
  · exact entryLe_refl _

theorem entryLe_betterEntry_right (best e : TableEntry) : entryLe e (betterEntry best e) := by
  unfold betterEntry
  split_ifs with h
  · exact entryLe_refl _
  · unfold entryLe
    push_neg at h
    omega

theorem betterEntry_cases (best e : TableEntry) :
    betterEntry best e = best ∨ betterEntry best e = e := by
  unfold betterEntry
  split_ifs
  · exact Or.inr rfl
  · exact Or.inl rfl

theorem foldl_betterEntry_ge_init (l : List TableEntry) :
    ∀ init, entryLe init (l.foldl betterEntry init) := by
  induction l with
  | nil => exact fun init => entryLe_refl _
  | cons x t ih =>
    intro init
    exact entryLe_trans (entryLe_betterEntry_left init x) (ih (betterEntry init x))

theorem entryLe_foldl_betterEntry (l : List TableEntry) :
    ∀ init e, e ∈ l → entryLe e (l.foldl betterEntry init) := by
  induction l with
  | nil => intro _ e he; cases he
  | cons x t ih =>
    intro init e he
    rcases List.mem_cons.mp he with rfl | het
    · exact entryLe_trans (entryLe_betterEntry_right init e) (foldl_betterEntry_ge_init t _)
    · exact ih (betterEntry init x) e het

theorem foldl_betterEntry_le (l : List TableEntry) :
    ∀ init bound, entryLe init bound → (∀ e ∈ l, entryLe e bound) →
      entryLe (l.foldl betterEntry init) bound := by
  induction l with
  | nil => exact fun _ _ h _ => h
  | cons x t ih =>
    intro init bound hinit hl
    refine ih (betterEntry init x) bound ?_ (fun e he => hl e (List.mem_cons_of_mem x he))
    rcases betterEntry_cases init x with h | h <;> rw [h]
    · exact hinit
    · exact hl x (List.mem_cons_self x t)

theorem foldl_betterEntry_mem (l : List TableEntry) :
    ∀ init, l.foldl betterEntry init = init ∨ l.foldl betterEntry init ∈ l := by
  induction l with
  | nil => exact fun _ => Or.inl rfl
  | cons x t ih =>
    intro init
    rcases ih (betterEntry init x) with h | h
    · rcases betterEntry_cases init x with h2 | h2 <;> rw [List.foldl_cons, h, h2]
      · exact Or.inl rfl
      · exact Or.inr (List.mem_cons_self x t)
    · exact Or.inr (List.mem_cons_of_mem x h)

theorem sortNat_perm (l : List Nat) : List.Perm (sortNat l) l := List.perm_insertionSort _ l

theorem sortNat_sorted (l : List Nat) : List.Sorted (· ≤ ·) (sortNat l) :=
  List.sorted_insertionSort _ l

theorem sortNat_length (l : List Nat) : (sortNat l).length = l.length :=
  (sortNat_perm l).length_eq

theorem cardValue_ge_one (c : Nat) : 1 ≤ cardValue c := Nat.le_add_left 1 _

theorem cardValue_le_13 (c : Nat) : cardValue c ≤ 13 := by
  unfold cardValue
  omega

theorem mem_sortNat_values {cs : List Nat} {x : Nat}
    (hx : x ∈ sortNat (cs.map cardValue)) : 1 ≤ x ∧ x ≤ 13 := by
  have hx2 : x ∈ cs.map cardValue := (sortNat_perm _).mem_iff.mp hx
  obtain ⟨c, _, rfl⟩ := List.mem_map.mp hx2
  exact ⟨cardValue_ge_one c, cardValue_le_13 c⟩

theorem values_getD_le_13 (cs : List Nat) (k : Nat) :
    (sortNat (cs.map cardValue)).getD k 0 ≤ 13 := by
  rcases Nat.lt_or_ge k (sortNat (cs.map cardValue)).length with h | h
  · rw [List.getD_eq_getElem _ _ h]
    exact (mem_sortNat_values (List.getElem_mem h)).2
  · rw [List.getD_eq_default _ _ h]
    omega

theorem scoreFiveCards_rank_bounds (cs : List Nat) :
    1 ≤ (scoreFiveCards cs).1 ∧ (scoreFiveCards cs).1 ≤ 9 := by
  unfold scoreFiveCards
  dsimp only
  split_ifs <;> omega

theorem scoreFiveCards_hi_le (cs : List Nat) : (scoreFiveCards cs).2 ≤ 14 := by
  unfold scoreFiveCards
  dsimp only
  split_ifs with h1 h2
  · omega
  · omega
  · exact le_trans (values_getD_le_13 cs 4) (by omega)

theorem scoreFiveCards_hi_ge (cs : List Nat) (h5 : cs.length = 5) :
    1 ≤ (scoreFiveCards cs).2 := by
  unfold scoreFiveCards
  dsimp only
  split_ifs with h1 h2
  · omega
  · omega
  · have hlen : (sortNat (cs.map cardValue)).length = 5 := by
      rw [sortNat_length, List.length_map, h5]
    rw [List.getD_eq_getElem _ _ (by omega)]
    exact (mem_sortNat_values (List.getElem_mem (by omega))).1

theorem le_foldr_max (l : List Nat) (x : Nat) (hx : x ∈ l) : x ≤ l.foldr max 0 := by
  induction l with
  | nil => cases hx
  | cons y t ih =>
    rcases List.mem_cons.mp hx with rfl | h
    · exact le_max_left _ _
    · exact le_trans (ih h) (le_max_right _ _)

theorem foldr_max_le (l : List Nat) (bound : Nat) (h : ∀ x ∈ l, x ≤ bound) :
    l.foldr max 0 ≤ bound := by
  induction l with
  | nil => exact Nat.zero_le _
  | cons y t ih =>
    exact max_le (h y (List.mem_cons_self y t))
      (ih (fun x hx => h x (List.mem_cons_of_mem y hx)))

theorem scoreFiveCards_high_rule (cs : List Nat) (h5 : cs.length = 5)
    (hval : ∀ c ∈ cs, c ≤ 51) :
    (scoreFiveCards cs).2 =
      if List.Perm (cs.map cardValue) [1, 2, 3, 4, 5] then 5
      else if 1 ∈ cs.map cardValue then 14
      else (cs.map cardValue).foldr max 0 := by
  have hsl : (sortNat (cs.map cardValue)).length = 5 := by
    rw [sortNat_length, List.length_map, h5]
  have hperm := sortNat_perm (cs.map cardValue)
  have hsorted := sortNat_sorted (cs.map cardValue)
  obtain ⟨a, b, c', d, e, hs⟩ :
      ∃ a b c' d e, sortNat (cs.map cardValue) = [a, b, c', d, e] := by
    rcases hq : sortNat (cs.map cardValue) with _ | ⟨a, _ | ⟨b, _ | ⟨c', _ | ⟨d, _ | ⟨e, _ | ⟨f, t⟩⟩⟩⟩⟩⟩ <;>
      rw [hq] at hsl <;> simp at hsl
    exact ⟨a, b, c', d, e, rfl⟩
  rw [hs] at hperm hsorted
  have hone : ∀ x ∈ [a, b, c', d, e], 1 ≤ x := by
    intro x hx
    exact (mem_sortNat_values (hs ▸ hx)).1
  have hchain : a ≤ b ∧ b ≤ c' ∧ c' ≤ d ∧ d ≤ e := by
    obtain ⟨h1, hs1⟩ := List.sorted_cons.mp hsorted
    obtain ⟨h2, hs2⟩ := List.sorted_cons.mp hs1
    obtain ⟨h3, hs3⟩ := List.sorted_cons.mp hs2
    obtain ⟨h4, _⟩ := List.sorted_cons.mp hs3
    exact ⟨h1 b (by simp), h2 c' (by simp), h3 d (by simp), h4 e (by simp)⟩
  have hP : List.Perm (cs.map cardValue) [1, 2, 3, 4, 5] ↔ [a, b, c', d, e] = [1, 2, 3, 4, 5] := by
    constructor
    · intro h
      refine List.eq_of_perm_of_sorted (hperm.trans h) (hs ▸ sortNat_sorted _)
        (show List.Sorted (· ≤ ·) [1, 2, 3, 4, 5] by decide)
    · intro h
      exact (hperm.symm.trans (h ▸ List.Perm.refl _))
  have hMem : 1 ∈ cs.map cardValue ↔ a = 1 := by
    constructor
    · intro h
      have h1 : 1 ∈ [a, b, c', d, e] := hperm.mem_iff.mpr h
      have ha : 1 ≤ a := hone a (by simp)
      simp at h1
      omega
    · intro h
      exact hperm.mem_iff.mp (by simp [h])
  have hMax : (cs.map cardValue).foldr max 0 = e := by
    refine le_antisymm ?_ ?_
    · refine foldr_max_le _ _ (fun x hx => ?_)
      have : x ∈ [a, b, c', d, e] := hperm.mem_iff.mpr hx
      simp at this
      omega
    · exact le_foldr_max _ _ (hperm.mem_iff.mp (by simp))
  unfold scoreFiveCards
  dsimp only
  rw [hs]
  by_cases hw : ([a, b, c', d, e] : List Nat) = [1, 2, 3, 4, 5]
  · have ha : a = 1 := by
      injection hw with h1 _
    rw [if_pos (by simp [ha, List.getD]), if_pos hw, if_pos (hP.mpr hw)]
  · by_cases hace : a = 1
    · rw [if_pos (by simp [hace, List.getD]), if_neg hw,
        if_neg (fun h => hw (hP.mp h)), if_pos (hMem.mpr hace)]
    · rw [if_neg (by simpa [List.getD] using hace), if_neg (fun h => hw (hP.mp h)),
        if_neg (fun h => hace (hMem.mp h)), hMax]
      simp [List.getD]

theorem cardValue_add_suit (v s : Nat) (hv : v < 13) : cardValue (v + 13 * s) = v + 1 := by
  unfold cardValue
  rw [Nat.add_mul_mod_self_left, Nat.mod_eq_of_lt hv]

theorem cardSuit_add_suit (v s : Nat) (hv : v < 13) : cardSuit (v + 13 * s) = s := by
  unfold cardSuit
  rw [Nat.add_mul_div_left _ _ (by omega : 0 < 13), Nat.div_eq_of_lt hv]
  omega

theorem scoreFiveCards_royal (s : Nat) (l : List Nat)
    (hperm : List.Perm l [9 + 13 * s, 10 + 13 * s, 11 + 13 * s, 12 + 13 * s, 0 + 13 * s]) :
    scoreFiveCards l = (9, 14) := by
  have hlen : l.length = 5 := by
    rw [hperm.length_eq]
    rfl
  have hvmap : List.Perm (l.map cardValue) [10, 11, 12, 13, 1] := by
    have h := hperm.map cardValue
    rwa [show [9 + 13 * s, 10 + 13 * s, 11 + 13 * s, 12 + 13 * s, 0 + 13 * s].map cardValue
        = [10, 11, 12, 13, 1] by
      have h0 : cardValue (13 * s) = 1 := by
        unfold cardValue
        rw [Nat.mul_mod_right]
      simp [cardValue_add_suit 9 s (by omega), cardValue_add_suit 10 s (by omega),
        cardValue_add_suit 11 s (by omega), cardValue_add_suit 12 s (by omega), h0]] at h
  have hvals : sortNat (l.map cardValue) = [1, 10, 11, 12, 13] := by
    refine List.eq_of_perm_of_sorted
      ((sortNat_perm _).trans (hvmap.trans ?_)) (sortNat_sorted _)
      (show List.Sorted (· ≤ ·) [1, 10, 11, 12, 13] by decide)
    exact @List.perm_append_comm _ [10, 11, 12, 13] [1]
  have hsuits : l.map cardSuit = List.replicate 5 s := by
    have hall : ∀ x ∈ l.map cardSuit, x = s := by
      intro x hx
      obtain ⟨c, hc, rfl⟩ := List.mem_map.mp hx
      have hcr := hperm.mem_iff.mp hc
      simp only [List.mem_cons, List.mem_singleton] at hcr
      rcases hcr with rfl | rfl | rfl | rfl | rfl | h
      · exact cardSuit_add_suit 9 s (by omega)
      · exact cardSuit_add_suit 10 s (by omega)
      · exact cardSuit_add_suit 11 s (by omega)
      · exact cardSuit_add_suit 12 s (by omega)
      · exact cardSuit_add_suit 0 s (by omega)
      · cases h
    have hml : (l.map cardSuit).length = 5 := by rw [List.length_map, hlen]
    rw [← hml]
    exact List.eq_replicate_of_mem hall
  have hflush : ((List.replicate 5 s).all
      (fun x => decide (x = (List.replicate 5 s).getD 0 0))) = true := by
    simp [List.replicate_succ]
  unfold scoreFiveCards
  dsimp only
  rw [hvals, hsuits]
  simp only [Prod.mk.injEq]
  constructor
  · rw [if_pos ⟨hflush, Or.inl (by simp)⟩]
  · rw [if_pos (by decide), if_neg (by decide)]

theorem entryLe_nine_fourteen {e : TableEntry} (h1 : e.1 ≤ 9) (h2 : e.2 ≤ 14) :
    entryLe e (9, 14) := by
  unfold entryLe
  omega

theorem handScore_royal (cards : List Nat) (h7 : cards.length = 7) (s : Nat)
    (hsub : List.Subperm [9 + 13 * s, 10 + 13 * s, 11 + 13 * s, 12 + 13 * s, 0 + 13 * s] cards) :
    handScore cards = (9, 14) := by
  obtain ⟨l, hlp, hls⟩ := hsub
  have hlen : l.length = 5 := by
    rw [hlp.length_eq]
    rfl
  have hmem : l ∈ cards.sublistsLen 5 := List.mem_sublistsLen.mpr ⟨hls, hlen⟩
  have hscore : scoreFiveCards l = (9, 14) := scoreFiveCards_royal s l hlp
  have hin : (9, 14) ∈ (cards.sublistsLen 5).map scoreFiveCards :=
    List.mem_map.mpr ⟨l, hmem, hscore⟩
  refine entryLe_antisymm ?_ ?_
  · unfold handScore
    refine foldl_betterEntry_le _ _ _ (by unfold entryLe; omega) ?_
    intro e he
    obtain ⟨sub, _, rfl⟩ := List.mem_map.mp he
    exact entryLe_nine_fourteen (scoreFiveCards_rank_bounds sub).2 (scoreFiveCards_hi_le sub)
  · exact entryLe_foldl_betterEntry _ _ _ hin

/-- C4: (i) for every 5-card hand of valid cards, the high component of the
5-card evaluator is 5 when the value multiset is exactly the wheel
`{A,2,3,4,5}`, 14 when an ace is present and the hand is not the wheel, and
the maximum card value otherwise; (ii) every 7-card hand containing the
suited cards `{10, J, Q, K, A}` of one suit scores `(rank 9, high 14)`. -/
theorem C4_high_card_rule :
    (∀ cards : List Nat, cards.length = 5 → (∀ c ∈ cards, c ≤ 51) →
      (scoreFiveCards cards).2 =
        if List.Perm (cards.map cardValue) [1, 2, 3, 4, 5] then 5
        else if 1 ∈ cards.map cardValue then 14
        else (cards.map cardValue).foldr max 0) ∧
    (∀ cards : List Nat, cards.length = 7 → (∀ c ∈ cards, c ≤ 51) → ∀ s : Nat, s < 4 →
      List.Subperm [9 + 13 * s, 10 + 13 * s, 11 + 13 * s, 12 + 13 * s, 0 + 13 * s] cards →
      handScore cards = (9, 14)) :=
  ⟨fun cards h5 hval => scoreFiveCards_high_rule cards h5 hval,
   fun cards h7 _ s _ hsub => handScore_royal cards h7 s hsub⟩

/-- C4 witness: the high-card rule on the hand `{K♣, K♠, K♥, K♦, 9♣}` and the
royal-flush rule on the clubs royal hand of the repository's own test. -/
theorem C4_high_card_rule_witness :
    ((scoreFiveCards [12, 25, 38, 51, 8]).2 =
      if List.Perm ([12, 25, 38, 51, 8].map cardValue) [1, 2, 3, 4, 5] then 5
      else if 1 ∈ [12, 25, 38, 51, 8].map cardValue then 14
      else (([12, 25, 38, 51, 8] : List Nat).map cardValue).foldr max 0) ∧
      handScore [0, 9, 10, 11, 12, 27, 41] = (9, 14) :=
  ⟨C4_high_card_rule.1 [12, 25, 38, 51, 8] (by decide) (by decide),
   C4_high_card_rule.2 [0, 9, 10, 11, 12, 27, 41] (by decide) (by decide) 0 (by decide)
     ⟨[0, 9, 10, 11, 12], @List.perm_append_comm _ [0] [9, 10, 11, 12],
      List.sublist_append_left [0, 9, 10, 11, 12] [27, 41]⟩⟩


/-! ## C10: the opponent range `1..num_players` -/

theorem bestOpponentEntry?_one (g : Game) : bestOpponentEntry? g 1 = none := rfl

theorem cutMargin?_one (deck : List Nat) (k : Nat) : cutMargin? 1 deck k = none := by
  simp [cutMargin?, bestOpponentEntry?_one]

theorem mapM_cons_none (f : Nat → Option Int) (x : Nat) (t : List Nat) (hx : f x = none) :
    (x :: t).mapM f = none := by
  rw [List.mapM_cons, hx]
  rfl

theorem hybridScore?_one (deck : List Nat) (real : Bool) : hybridScore? 1 deck real = none := by
  simp only [hybridScore?]
  cases real
  · rw [if_neg (by simp), (by decide : List.range 52 = 0 :: List.range' 1 51),
      mapM_cons_none _ _ _ (cutMargin?_one deck 0)]
    rfl
  · rw [if_pos rfl, (by decide : List.range' 5 42 = 5 :: List.range' 6 41),
      mapM_cons_none _ _ _ (cutMargin?_one deck 5)]
    rfl

theorem maxEntry?_isSome (es : List TableEntry) (h : es ≠ []) : (maxEntry? es).isSome := by
  unfold maxEntry?
  obtain ⟨x, t, rfl⟩ := List.exists_cons_of_ne_nil h
  clear h
  rw [List.foldl_cons]
  dsimp only
  induction t generalizing x with
  | nil => rfl
  | cons y t ih =>
    rw [List.foldl_cons]
    dsimp only
    split_ifs
    · exact ih y
    · exact ih x

theorem bestOpponentEntry?_isSome (g : Game) (n : Nat) (hn : 2 ≤ n) :
    (bestOpponentEntry? g n).isSome := by
  unfold bestOpponentEntry?
  refine maxEntry?_isSome _ ?_
  have hl : (List.range' 1 (n - 1)).length = n - 1 := by simp
  intro hcon
  rw [List.map_eq_nil_iff] at hcon
  rw [hcon] at hl
  simp at hl
  omega

theorem cutMargin?_isSome (n : Nat) (hn : 2 ≤ n) (deck : List Nat) (k : Nat) :
    (cutMargin? n deck k).isSome := by
  simp only [cutMargin?]
  obtain ⟨b, hb⟩ := Option.isSome_iff_exists.mp
    (bestOpponentEntry?_isSome (dealARound n (cut deck k)) n hn)
  rw [hb]
  rfl

theorem mapM_isSome_of_forall (f : Nat → Option Int) (l : List Nat)
    (h : ∀ x ∈ l, (f x).isSome) : (l.mapM f).isSome := by
  induction l with
  | nil => rfl
  | cons x t ih =>
    rw [List.mapM_cons]
    obtain ⟨y, hy⟩ := Option.isSome_iff_exists.mp (h x (List.mem_cons_self x t))
    obtain ⟨ys, hys⟩ := Option.isSome_iff_exists.mp
      (ih (fun z hz => h z (List.mem_cons_of_mem x hz)))
    rw [hy]
    show ((List.mapM f t).bind fun l => some (y :: l)).isSome = true
    rw [hys]
    rfl

theorem hybridScore?_isSome (n : Nat) (hn : 2 ≤ n) (deck : List Nat) (real : Bool) :
    (hybridScore? n deck real).isSome := by
  simp only [hybridScore?]
  obtain ⟨ms, hms⟩ := Option.isSome_iff_exists.mp
    (mapM_isSome_of_forall (cutMargin? n deck)
      (if real then List.range' 5 42 else List.range 52)
      (fun k _ => cutMargin?_isSome n hn deck k))
  rw [hms]
  rfl



/-! ## C7: monotonicity of the simulated-annealing kernel -/

theorem handScore_bounds (cards : List Nat) (h7 : cards.length = 7) :
    1 ≤ (handScore cards).1 ∧ (handScore cards).1 ≤ 9 ∧
      1 ≤ (handScore cards).2 ∧ (handScore cards).2 ≤ 14 := by
  have hne : (cards.sublistsLen 5).map scoreFiveCards ≠ [] := by
    intro hcon
    have := congrArg List.length hcon
    rw [List.length_map, List.length_sublistsLen, h7] at this
    exact absurd this (by decide)
  have hb : ∀ e ∈ (cards.sublistsLen 5).map scoreFiveCards,
      1 ≤ e.1 ∧ e.1 ≤ 9 ∧ 1 ≤ e.2 ∧ e.2 ≤ 14 := by
    intro e he
    obtain ⟨sub, hsub, rfl⟩ := List.mem_map.mp he
    have h5 : sub.length = 5 := (List.mem_sublistsLen.mp hsub).2
    exact ⟨(scoreFiveCards_rank_bounds sub).1, (scoreFiveCards_rank_bounds sub).2,
      scoreFiveCards_hi_ge sub h5, scoreFiveCards_hi_le sub⟩
  rcases foldl_betterEntry_mem ((cards.sublistsLen 5).map scoreFiveCards) (0, 0) with h | h
  · exfalso
    obtain ⟨e, t, heq⟩ := List.exists_cons_of_ne_nil hne
    have hle := entryLe_foldl_betterEntry ((cards.sublistsLen 5).map scoreFiveCards) (0, 0) e
      (by rw [heq]; exact List.mem_cons_self e t)
    rw [h] at hle
    have hbe := hb e (by rw [heq]; exact List.mem_cons_self e t)
    unfold entryLe at hle
    omega
  · exact hb _ h

theorem playersScore_deal_bounds (n : Nat) (deck : List Nat) (i : Nat) :
    1 ≤ (playersScore (dealARound n deck) i).1 ∧ (playersScore (dealARound n deck) i).1 ≤ 9 ∧
      1 ≤ (playersScore (dealARound n deck) i).2 ∧ (playersScore (dealARound n deck) i).2 ≤ 14 := by
  unfold playersScore
  refine handScore_bounds _ ?_
  rw [sortNat_length]
  simp [dealARound]

theorem maxEntry?_mem (es : List TableEntry) (b : TableEntry) (h : maxEntry? es = some b) :
    b ∈ es := by
  unfold maxEntry? at h
  suffices haux : ∀ (l : List TableEntry) (acc : Option TableEntry) (b : TableEntry),
      l.foldl (fun acc e => match acc with
        | none => some e
        | some m => if entryLe m e then some e else some m) acc = some b →
      (acc = some b ∨ b ∈ l) by
    rcases haux es none b h with hcon | hmem
    · cases hcon
    · exact hmem
  intro l
  induction l with
  | nil => intro acc b h; exact Or.inl h
  | cons x t ih =>
    intro acc b h
    rw [List.foldl_cons] at h
    rcases ih _ b h with hacc | hmem
    · match acc, hacc with
      | none, hacc =>
        cases hacc
        exact Or.inr (List.mem_cons_self x t)
      | some m, hacc =>
        dsimp only at hacc
        split_ifs at hacc with hle
        · cases hacc
          exact Or.inr (List.mem_cons_self x t)
        · exact Or.inl hacc
    · exact Or.inr (List.mem_cons_of_mem x hmem)

theorem maxEntry?_ge (es : List TableEntry) (b : TableEntry) (h : maxEntry? es = some b) :
    ∀ e ∈ es, entryLe e b := by
  unfold maxEntry? at h
  suffices haux : ∀ (l : List TableEntry) (acc : Option TableEntry) (b : TableEntry),
      l.foldl (fun acc e => match acc with
        | none => some e
        | some m => if entryLe m e then some e else some m) acc = some b →
      (∀ e ∈ l, entryLe e b) ∧ (∀ m, acc = some m → entryLe m b) by
    exact (haux es none b h).1
  intro l
  induction l with
  | nil =>
    intro acc b h
    exact ⟨fun e he => absurd he (List.not_mem_nil e), fun m hm => by
      rw [hm] at h
      cases h
      exact entryLe_refl _⟩
  | cons x t ih =>
    intro acc b h
    rw [List.foldl_cons] at h
    match acc with
    | none =>
      dsimp only at h
      obtain ⟨h1, h2⟩ := ih (some x) b h
      refine ⟨fun e he => ?_, fun m hm => by cases hm⟩
      rcases List.mem_cons.mp he with rfl | het
      · exact h2 e rfl
      · exact h1 e het
    | some m =>
      dsimp only at h
      split_ifs at h with hle
      · obtain ⟨h1, h2⟩ := ih (some x) b h
        refine ⟨fun e he => ?_, fun m' hm' => ?_⟩
        · rcases List.mem_cons.mp he with rfl | het
          · exact h2 e rfl
          · exact h1 e het
        · cases hm'
          exact entryLe_trans hle (h2 x rfl)
      · obtain ⟨h1, h2⟩ := ih (some m) b h
        have hmb := h2 m rfl
        refine ⟨fun e he => ?_, fun m' hm' => ?_⟩
        · rcases List.mem_cons.mp he with rfl | het
          · exact entryLe_trans (entryLe_of_entryLt (entryLt_of_not_entryLe hle)) hmb
          · exact h1 e het
        · cases hm'
          exact hmb

theorem entryLe_ne_lt {a b : TableEntry} (hle : entryLe a b) (hne : a ≠ b) : entryLt a b := by
  unfold entryLe at hle
  unfold entryLt
  have hne2 : ¬(a.1 = b.1 ∧ a.2 = b.2) := fun h => hne (Prod.ext_iff.mpr h)
  omega

theorem entryLt_le_trans {a b c : TableEntry} (h1 : entryLt a b) (h2 : entryLe b c) :
    entryLt a c := by
  unfold entryLt at h1 ⊢
  unfold entryLe at h2
  omega

theorem entryLe_lt_trans {a b c : TableEntry} (h1 : entryLe a b) (h2 : entryLt b c) :
    entryLt a c := by
  unfold entryLe at h1
  unfold entryLt at h2 ⊢
  omega

theorem toScore_lt_iff {a b : TableEntry} (ha : 1 ≤ a.2 ∧ a.2 ≤ 14) (hb : 1 ≤ b.2 ∧ b.2 ≤ 14) :
    toScore a < toScore b ↔ entryLt a b := by
  unfold toScore entryLt
  omega

theorem maxByLast_eq_zero_iff (f : Nat → TableEntry) (n : Nat) (hn : 0 < n) :
    ((List.range n).foldl (maxByLastAux f) none = some 0) ↔
      ∀ i, 0 < i → i < n → entryLt (f i) (f 0) := by
  induction n with
  | zero => omega
  | succ m ih =>
    rw [List.range_succ, List.foldl_append, List.foldl_cons, List.foldl_nil]
    rcases Nat.eq_zero_or_pos m with hm | hm
    · subst hm
      constructor
      · intro _ i h1 h2
        omega
      · intro _
        rfl
    · obtain ⟨w, hw, hwlt, hmax, htie⟩ := maxByLast_range_spec f m hm
      rw [hw]
      simp only [maxByLastAux]
      by_cases hle : entryLe (f w) (f m)
      · rw [if_pos hle]
        constructor
        · intro h
          cases h
          omega
        · intro hall
          exfalso
          have h1 : entryLt (f m) (f 0) := hall m (by omega) (by omega)
          have h2 : entryLe (f 0) (f w) := hmax 0 hm
          exact entryLt_irrefl _ (entryLt_le_trans h1 (entryLe_trans h2 hle))
      · rw [if_neg hle]
        have hmw := entryLt_of_not_entryLe hle
        constructor
        · intro h
          have hw0 : w = 0 := by
            cases h
            rfl
          subst hw0
          intro i h1 h2
          rcases Nat.lt_or_ge i m with him | him
          · refine entryLe_ne_lt (hmax i him) (fun heq => ?_)
            have := htie i him heq
            omega
          · have : i = m := by omega
            subst this
            exact hmw
        · intro hall
          have hw0 : w = 0 := by
            by_contra hwne
            have h1 : entryLt (f w) (f 0) := hall w (by omega) (by omega)
            have h2 : entryLe (f 0) (f w) := hmax 0 hm
            exact entryLt_irrefl _ (entryLe_lt_trans h2 h1)
          rw [hw0]

theorem players_length_deal (n : Nat) (deck : List Nat) :
    (dealARound n deck).players.length = n := by
  simp [dealARound]

theorem marginAt_spec (n : Nat) (hn : 2 ≤ n) (deck : List Nat) (k : Nat) :
    cutMargin? n deck k = some (marginAt n deck k) ∧
      -141 ≤ marginAt n deck k ∧ marginAt n deck k ≤ 141 ∧
      (0 < marginAt n deck k ↔ dealerWinsGame n (cut deck k)) := by
  obtain ⟨b, hb⟩ := Option.isSome_iff_exists.mp
    (bestOpponentEntry?_isSome (dealARound n (cut deck k)) n hn)
  have hsome : cutMargin? n deck k =
      some (toScore (playersScore (dealARound n (cut deck k)) 0) - toScore b) := by
    simp only [cutMargin?]
    rw [hb]
    rfl
  have hmval : marginAt n deck k =
      toScore (playersScore (dealARound n (cut deck k)) 0) - toScore b := by
    unfold marginAt
    rw [hsome]
    rfl
  -- b is the score of some opponent, so it is bounded like every deal score
  have hbmem := maxEntry?_mem _ b hb
  obtain ⟨i, _, hbi⟩ := List.mem_map.mp hbmem
  have hbb : 1 ≤ b.1 ∧ b.1 ≤ 9 ∧ 1 ≤ b.2 ∧ b.2 ≤ 14 := by
    rw [← hbi]
    exact playersScore_deal_bounds n (cut deck k) i
  have hs0 := playersScore_deal_bounds n (cut deck k) 0
  have htob : (17 : Int) ≤ toScore b ∧ toScore b ≤ 158 := by
    unfold toScore
    omega
  have htos : (17 : Int) ≤ toScore (playersScore (dealARound n (cut deck k)) 0) ∧
      toScore (playersScore (dealARound n (cut deck k)) 0) ≤ 158 := by
    unfold toScore
    omega
  refine ⟨hmval ▸ hsome, by omega, by omega, ?_⟩
  -- the sign of the margin decides the round
  have hsign : 0 < marginAt n deck k ↔
      entryLt b (playersScore (dealARound n (cut deck k)) 0) := by
    rw [hmval, Int.sub_pos]
    exact toScore_lt_iff ⟨hbb.2.2.1, hbb.2.2.2⟩ ⟨hs0.2.2.1, hs0.2.2.2⟩
  have hwin : dealerWinsGame n (cut deck k) ↔
      ∀ i, 0 < i → i < n → entryLt (playersScore (dealARound n (cut deck k)) i)
        (playersScore (dealARound n (cut deck k)) 0) := by
    unfold dealerWinsGame dealerWins winningPlayerIdx?
    rw [players_length_deal]
    exact maxByLast_eq_zero_iff _ n (by omega)
  rw [hsign, hwin]
  constructor
  · intro hblt i h1 h2
    refine entryLe_lt_trans ?_ hblt
    refine maxEntry?_ge _ b hb _ ?_
    exact List.mem_map.mpr ⟨i, by
      rw [List.mem_range'_1]
      omega, rfl⟩
  · intro hall
    obtain ⟨j, hj, hbj⟩ := List.mem_map.mp hbmem
    rw [List.mem_range'_1] at hj
    rw [← hbj]
    exact hall j (by omega) (by omega)

theorem mapM_eq_some_map (f : Nat → Option Int) (g : Nat → Int) (l : List Nat)
    (h : ∀ x ∈ l, f x = some (g x)) : l.mapM f = some (l.map g) := by
  induction l with
  | nil => rfl
  | cons x t ih =>
    rw [List.mapM_cons, h x (List.mem_cons_self x t)]
    show ((List.mapM f t).bind fun l => some (g x :: l)) = _
    rw [ih (fun z hz => h z (List.mem_cons_of_mem x hz))]
    rfl

theorem sum_bounds_of_forall (l : List Int) (h : ∀ x ∈ l, -141 ≤ x ∧ x ≤ 141) :
    -141 * l.length ≤ l.sum ∧ l.sum ≤ 141 * l.length := by
  induction l with
  | nil => simp
  | cons x t ih =>
    obtain ⟨h1, h2⟩ := ih (fun z hz => h z (List.mem_cons_of_mem x hz))
    obtain ⟨h3, h4⟩ := h x (List.mem_cons_self x t)
    rw [List.sum_cons, List.length_cons]
    push_cast
    constructor <;> nlinarith

theorem hybridScore?_spec (n : Nat) (hn : 2 ≤ n) (deck : List Nat) (real : Bool) :
    ∃ M : Int, hybridScore? n deck real = some ((numWins n deck real : Int) * 100000 + M) ∧
      -7332 ≤ M ∧ M ≤ 7332 := by
  have hmapM := mapM_eq_some_map (cutMargin? n deck) (marginAt n deck)
    (if real then List.range' 5 42 else List.range 52)
    (fun k _ => (marginAt_spec n hn deck k).1)
  have hcount : ∀ positions : List Nat,
      (positions.map (marginAt n deck)).countP (fun m => decide (0 < m)) =
        (positions.filter (fun k => decide (dealerWinsGame n (cut deck k)))).length := by
    intro positions
    rw [List.countP_map, ← List.countP_eq_length_filter]
    refine List.countP_congr (fun k _ => ?_)
    simp only [Function.comp, decide_eq_true_eq]
    exact (marginAt_spec n hn deck k).2.2.2
  refine ⟨((if real then List.range' 5 42 else List.range 52).map (marginAt n deck)).sum,
    ?_, ?_, ?_⟩
  · simp only [hybridScore?]
    rw [hmapM]
    simp only [Option.map_some']
    rw [hcount]
    cases real
    · rfl
    · rfl
  all_goals
    have hlen : ((if real then List.range' 5 42 else List.range 52).map
        (marginAt n deck)).length ≤ 52 := by
      cases real <;> simp
    have hb := sum_bounds_of_forall ((if real then List.range' 5 42
        else List.range 52).map (marginAt n deck)) ?_
    · omega
    · intro x hx
      obtain ⟨k, _, rfl⟩ := List.mem_map.mp hx
      exact ⟨(marginAt_spec n hn deck k).2.1, (marginAt_spec n hn deck k).2.2.1⟩

theorem numWins_mono_of_hybrid_le (n : Nat) (hn : 2 ≤ n) (d1 d2 : List Nat) (real : Bool)
    (s1 s2 : Int) (h1 : hybridScore? n d1 real = some s1)
    (h2 : hybridScore? n d2 real = some s2) (hle : s1 ≤ s2) :
    numWins n d1 real ≤ numWins n d2 real := by
  obtain ⟨M1, e1, l1, u1⟩ := hybridScore?_spec n hn d1 real
  obtain ⟨M2, e2, l2, u2⟩ := hybridScore?_spec n hn d2 real
  rw [h1] at e1
  rw [h2] at e2
  have q1 := Option.some.inj e1
  have q2 := Option.some.inj e2
  omega

theorem saStep_inv (n : Nat) (hn : 2 ≤ n) (real : Bool) (st : SAState)
    (inp : List Nat × Bool)
    (h1 : hybridScore? n st.bestDeck real = some st.bestScore)
    (h2 : st.bestWins = numWins n st.bestDeck real) :
    ∃ st', saStep n real st inp = some st' ∧
      hybridScore? n st'.bestDeck real = some st'.bestScore ∧
      st'.bestWins = numWins n st'.bestDeck real ∧ st.bestScore ≤ st'.bestScore := by
  unfold saStep
  by_cases hf : st.finished = true
  · rw [if_pos hf]
    exact ⟨st, rfl, h1, h2, le_refl _⟩
  · rw [if_neg hf]
    obtain ⟨ns, hns⟩ := Option.isSome_iff_exists.mp (hybridScore?_isSome n hn inp.1 real)
    rw [hns]
    dsimp only
    by_cases hacc : ns > st.currentScore ∨ inp.2 = true
    · rw [if_pos hacc]
      by_cases himp : ns > st.bestScore
      · rw [if_pos himp]
        exact ⟨_, rfl, hns, rfl, le_of_lt himp⟩
      · rw [if_neg himp]
        exact ⟨_, rfl, h1, h2, le_refl _⟩
    · rw [if_neg hacc]
      exact ⟨st, rfl, h1, h2, le_refl _⟩

theorem saFold_inv (n : Nat) (hn : 2 ≤ n) (real : Bool) :
    ∀ (tr : List (List Nat × Bool)) (st : SAState),
      hybridScore? n st.bestDeck real = some st.bestScore →
      st.bestWins = numWins n st.bestDeck real →
      ∃ st', tr.foldlM (saStep n real) st = some st' ∧
        hybridScore? n st'.bestDeck real = some st'.bestScore ∧
        st'.bestWins = numWins n st'.bestDeck real ∧ st.bestScore ≤ st'.bestScore := by
  intro tr
  induction tr with
  | nil => exact fun st h1 h2 => ⟨st, rfl, h1, h2, le_refl _⟩
  | cons inp rest ih =>
    intro st h1 h2
    obtain ⟨st1, hst1, i1, i2, hle⟩ := saStep_inv n hn real st inp h1 h2
    obtain ⟨st', hst', j1, j2, hle2⟩ := ih st1 i1 i2
    refine ⟨st', ?_, j1, j2, le_trans hle hle2⟩
    rw [List.foldlM_cons, hst1]
    exact hst'

/-- C7: for every starting deck, player count at least 2, and every trace of
mutation/acceptance outcomes (covering all iteration budgets, temperatures,
cooling rates and RNG states), `local_search_sa` returns a win count at
least `num_wins` of the starting deck. -/
theorem C7_sa_monotone (n : Nat) (hn : 2 ≤ n) (real : Bool) (start : List Nat)
    (hstart : IsPermDeck start) (trace : List (List Nat × Bool))
    (htrace : ∀ t ∈ trace, IsPermDeck t.1) :
    ∃ d w, localSearchSA? n real start trace = some (d, w) ∧ numWins n start real ≤ w := by
  obtain ⟨s0, hs0⟩ := Option.isSome_iff_exists.mp (hybridScore?_isSome n hn start real)
  obtain ⟨st', hst', j1, j2, hle⟩ := saFold_inv n hn real trace
    { currentDeck := start, currentScore := s0, bestDeck := start, bestScore := s0,
      bestWins := numWins n start real, finished := false } hs0 rfl
  refine ⟨st'.bestDeck, st'.bestWins, ?_, ?_⟩
  · simp only [localSearchSA?]
    rw [hs0]
    dsimp only
    rw [hst']
    rfl
  · rw [j2]
    exact numWins_mono_of_hybrid_le n hn start st'.bestDeck real s0 st'.bestScore hs0 j1 hle

/-- C7 witness: the canonical deck, two players, and the empty trace. -/
theorem C7_sa_monotone_witness :
    (2 ≤ 2 ∧ IsPermDeck newDeckOrder ∧
        (∀ t ∈ ([] : List (List Nat × Bool)), IsPermDeck t.1)) ∧
      ∃ d w, localSearchSA? 2 false newDeckOrder [] = some (d, w) ∧
        numWins 2 newDeckOrder false ≤ w :=
  ⟨⟨by decide, by decide, by decide⟩,
   C7_sa_monotone 2 (by decide) false newDeckOrder (by decide) [] (by decide)⟩

theorem mem_child_getD (child : List (Option Nat)) (v : Nat) :
    some v ∈ child ↔ ∃ k, k < child.length ∧ child.getD k none = some v := by
  rw [List.mem_iff_getElem]
  constructor
  · rintro ⟨k, hk, he⟩
    exact ⟨k, hk, by rw [List.getD_eq_getElem _ _ hk, he]⟩
  · rintro ⟨k, hk, he⟩
    exact ⟨k, hk, by rw [← List.getD_eq_getElem _ none hk, he]⟩

theorem getD_set_opt (l : List (Option Nat)) (i k : Nat) (x : Option Nat) :
    (l.set i x).getD k none = if i = k ∧ i < l.length then x else l.getD k none := by
  rw [List.getD_eq_getElem?_getD, List.getElem?_set]
  by_cases hik : i = k
  · subst hik
    by_cases hil : i < l.length
    · rw [if_pos rfl, if_pos hil, if_pos ⟨rfl, hil⟩]
      rfl
    · rw [if_pos rfl, if_neg hil, if_neg (fun h => hil h.2)]
      rw [List.getD_eq_getElem?_getD, List.getElem?_eq_none (by omega)]
  · rw [if_neg hik, if_neg (fun h => hik h.1), List.getD_eq_getElem?_getD]

theorem perm_mem_of_le (p2 : List Nat) (hp2 : IsPermDeck p2) (v : Nat) (hv : v ≤ 51) :
    v ∈ p2 := by
  by_contra hcon
  have hsub : p2.toFinset ⊆ (Finset.range 52).erase v := by
    intro x hx
    rw [List.mem_toFinset] at hx
    refine Finset.mem_erase.mpr ⟨?_, ?_⟩
    · rintro rfl
      exact hcon hx
    · exact Finset.mem_range.mpr (by have := hp2.2.2 x hx; omega)
  have hcard := Finset.card_le_card hsub
  rw [List.toFinset_card_of_nodup hp2.2.1, hp2.1,
    Finset.card_erase_of_mem (Finset.mem_range.mpr (by omega)), Finset.card_range] at hcard
  omega

theorem exists_fresh (p2 : List Nat) (hp2 : IsPermDeck p2) (child : List (Option Nat))
    (hci : ChildInv child) (p : Nat) (hsi : ScanInv child p2 p) (i : Nat) (hi : i < 52)
    (hnone : child.getD i none = none) :
    ∃ j, p ≤ j ∧ j < p2.length ∧ some (p2.getD j 0) ∉ child := by
  by_contra hcon
  push_neg at hcon
  have hmem2 : ∀ j, j < p2.length → some (p2.getD j 0) ∈ child := by
    intro j hj
    rcases Nat.lt_or_ge j p with hjp | hjp
    · exact hsi j hjp
    · exact hcon j hjp hj
  have hall : ∀ v, v ≤ 51 → some v ∈ child := by
    intro v hv
    obtain ⟨k, hk, hkv⟩ := List.mem_iff_getElem.mp (perm_mem_of_le p2 hp2 v hv)
    have h := hmem2 k hk
    rwa [List.getD_eq_getElem _ _ hk, hkv] at h
  have hchoose : ∀ v : Fin 52, ∃ k, k < child.length ∧ child.getD k none = some v.val :=
    fun v => (mem_child_getD child v.val).mp (hall v.val (by omega))
  choose ix hix1 hix2 using hchoose
  have hmaps : ∀ v : Fin 52, v ∈ Finset.univ → ix v ∈ (Finset.range 52).erase i := by
    intro v _
    refine Finset.mem_erase.mpr ⟨?_, Finset.mem_range.mpr (by
      have h1 := hix1 v
      have h2 := hci.1
      omega)⟩
    intro hvi
    have h2 := hix2 v
    rw [hvi, hnone] at h2
    cases h2
  have hinj : Set.InjOn ix (Finset.univ : Finset (Fin 52)) := by
    intro v1 hv1 v2 hv2 heq
    have e1 := hix2 v1
    have e2 := hix2 v2
    rw [heq, e2] at e1
    have hval : (v2 : Nat) = (v1 : Nat) := Option.some.inj e1
    exact Fin.ext hval.symm
  have hcard := Finset.card_le_card_of_injOn ix hmaps hinj
  rw [Finset.card_univ, Fintype.card_fin,
    Finset.card_erase_of_mem (Finset.mem_range.mpr hi), Finset.card_range] at hcard
  omega

theorem skipDups_spec (child : List (Option Nat)) (p2 : List Nat) :
    ∀ fuel p, p2.length - p ≤ fuel →
      (∃ j, p ≤ j ∧ j < p2.length ∧ some (p2.getD j 0) ∉ child) →
      p ≤ skipDups child p2 p ∧ skipDups child p2 p < p2.length ∧
        some (p2.getD (skipDups child p2 p) 0) ∉ child ∧
        ∀ k, p ≤ k → k < skipDups child p2 p → some (p2.getD k 0) ∈ child := by
  intro fuel
  induction fuel with
  | zero =>
    intro p hf ⟨j, hj1, hj2, _⟩
    omega
  | succ f ih =>
    intro p hf hex
    obtain ⟨j, hj1, hj2, hj3⟩ := hex
    have hp : p < p2.length := by omega
    rw [skipDups, dif_pos hp]
    by_cases hmem : some (p2.getD p 0) ∈ child
    · rw [if_pos hmem]
      have hex2 : ∃ j, p + 1 ≤ j ∧ j < p2.length ∧ some (p2.getD j 0) ∉ child := by
        refine ⟨j, ?_, hj2, hj3⟩
        rcases Nat.eq_or_lt_of_le hj1 with rfl | h
        · exact absurd hmem hj3
        · omega
      obtain ⟨k1, k2, k3, k4⟩ := ih (p + 1) (by omega) hex2
      refine ⟨by omega, k2, k3, fun k hk1 hk2 => ?_⟩
      rcases Nat.eq_or_lt_of_le hk1 with rfl | h
      · exact hmem
      · exact k4 k (by omega) hk2
    · rw [if_neg hmem]
      exact ⟨le_refl _, hp, hmem, fun k hk1 hk2 => by omega⟩


theorem fillFromParent_spec (p2 : List Nat) (hp2 : IsPermDeck p2) :
    ∀ (rest : List Nat) (p : Nat) (child : List (Option Nat)),
      ChildInv child → ScanInv child p2 p → (∀ i ∈ rest, i < 52) →
      ChildInv (fillFromParent p2 rest p child) ∧
      (∀ i, i < 52 → (child.getD i none).isSome →
        (fillFromParent p2 rest p child).getD i none = child.getD i none) ∧
      (∀ i ∈ rest, ((fillFromParent p2 rest p child).getD i none).isSome) := by
  intro rest
  induction rest with
  | nil =>
    intro p child hci hsi hall
    exact ⟨hci, fun i _ _ => rfl, fun i hi => absurd hi (List.not_mem_nil i)⟩
  | cons i rest ih =>
    intro p child hci hsi hall
    have hi52 : i < 52 := hall i (List.mem_cons_self i rest)
    have hlen : child.length = 52 := hci.1
    cases hcase : child.getD i none with
    | some v =>
      have hstep : fillFromParent p2 (i :: rest) p child = fillFromParent p2 rest p child := by
        rw [fillFromParent, hcase]
      rw [hstep]
      obtain ⟨r1, r2, r3⟩ := ih p child hci hsi (fun z hz => hall z (List.mem_cons_of_mem i hz))
      refine ⟨r1, r2, fun z hz => ?_⟩
      rcases List.mem_cons.mp hz with rfl | hzr
      · rw [r2 z hi52 (by rw [hcase]; rfl)]
        rw [hcase]
        rfl
      · exact r3 z hzr
    | none =>
      obtain ⟨j, hj1, hj2, hj3⟩ := exists_fresh p2 hp2 child hci p hsi i hi52 hcase
      obtain ⟨q1, q2, q3, q4⟩ :=
        skipDups_spec child p2 (p2.length - p) p (le_refl _) ⟨j, hj1, hj2, hj3⟩
      have hstep : fillFromParent p2 (i :: rest) p child =
          fillFromParent p2 rest (skipDups child p2 p + 1)
            (child.set i (some (p2.getD (skipDups child p2 p) 0))) := by
        rw [fillFromParent, hcase]
        simp only [q2, if_true]
      have hv51 : p2.getD (skipDups child p2 p) 0 ≤ 51 := by
        have hm : p2.getD (skipDups child p2 p) 0 ∈ p2 := by
          rw [List.getD_eq_getElem _ _ q2]
          exact List.getElem_mem q2
        exact hp2.2.2 _ hm
      have hget : ∀ k, (child.set i (some (p2.getD (skipDups child p2 p) 0))).getD k none =
          if i = k then some (p2.getD (skipDups child p2 p) 0) else child.getD k none := by
        intro k
        rw [getD_set_opt]
        by_cases hik : i = k
        · rw [if_pos ⟨hik, by omega⟩, if_pos hik]
        · rw [if_neg (fun h => hik h.1), if_neg hik]
      have hlen2 : (child.set i (some (p2.getD (skipDups child p2 p) 0))).length = 52 := by
        rw [List.length_set, hlen]
      have htrans : ∀ x, some x ∈ child →
          some x ∈ child.set i (some (p2.getD (skipDups child p2 p) 0)) := by
        intro x hx
        obtain ⟨k, hk, hkv⟩ := (mem_child_getD child x).mp hx
        have hki : i ≠ k := by
          rintro rfl
          rw [hcase] at hkv
          cases hkv
        refine (mem_child_getD _ x).mpr ⟨k, by omega, ?_⟩
        rw [hget k, if_neg hki]
        exact hkv
      have hci2 : ChildInv (child.set i (some (p2.getD (skipDups child p2 p) 0))) := by
        refine ⟨hlen2, ?_, ?_⟩
        · intro i1 i2 v h1 h2 hne e1 e2
          rw [hget] at e1 e2
          by_cases hi1 : i = i1
          · rw [if_pos hi1] at e1
            rw [if_neg (by omega)] at e2
            cases e1
            exact q3 ((mem_child_getD child _).mpr ⟨i2, by omega, e2⟩)
          · rw [if_neg hi1] at e1
            by_cases hi2 : i = i2
            · rw [if_pos hi2] at e2
              cases e2
              exact q3 ((mem_child_getD child _).mpr ⟨i1, by omega, e1⟩)
            · rw [if_neg hi2] at e2
              exact hci.2.1 i1 i2 v h1 h2 hne e1 e2
        · intro k v hk e
          rw [hget] at e
          by_cases hik : i = k
          · rw [if_pos hik] at e
            cases e
            exact hv51
          · rw [if_neg hik] at e
            exact hci.2.2 k v hk e
      have hsi2 : ScanInv (child.set i (some (p2.getD (skipDups child p2 p) 0))) p2
          (skipDups child p2 p + 1) := by
        intro j2 hj2lt
        rcases Nat.lt_or_ge j2 (skipDups child p2 p) with hlt | hge
        · rcases Nat.lt_or_ge j2 p with hpp | hpp
          · exact htrans _ (hsi j2 hpp)
          · exact htrans _ (q4 j2 hpp hlt)
        · have : j2 = skipDups child p2 p := by omega
          subst this
          refine (mem_child_getD _ _).mpr ⟨i, by omega, ?_⟩
          rw [hget i, if_pos rfl]
      rw [hstep]
      obtain ⟨r1, r2, r3⟩ := ih (skipDups child p2 p + 1)
        (child.set i (some (p2.getD (skipDups child p2 p) 0))) hci2 hsi2
        (fun z hz => hall z (List.mem_cons_of_mem i hz))
      refine ⟨r1, fun i0 h0 hs0 => ?_, fun z hz => ?_⟩
      · have hii0 : i ≠ i0 := by
          rintro rfl
          rw [hcase] at hs0
          cases hs0
        have hsame : (child.set i (some (p2.getD (skipDups child p2 p) 0))).getD i0 none =
            child.getD i0 none := by
          rw [hget i0, if_neg hii0]
        rw [r2 i0 h0 (by rw [hsame]; exact hs0), hsame]
      · rcases List.mem_cons.mp hz with rfl | hzr
        · rw [r2 z hi52 (by rw [hget z, if_pos rfl]; rfl), hget z, if_pos rfl]
          rfl
        · exact r3 z hzr

theorem unwrapAll_spec (child : List (Option Nat)) :
    (∀ i, i < child.length → (child.getD i none).isSome) →
    ∃ vals, unwrapAll child = some vals ∧ vals.length = child.length ∧
      ∀ i, i < child.length → some (vals.getD i 0) = child.getD i none := by
  induction child with
  | nil => exact fun _ => ⟨[], rfl, rfl, fun i hi => by simp at hi⟩
  | cons x t ih =>
    intro hall
    have hx : x.isSome := hall 0 (by simp)
    obtain ⟨v, rfl⟩ := Option.isSome_iff_exists.mp hx
    obtain ⟨vals, h1, h2, h3⟩ := ih (fun i hi => hall (i + 1) (by simpa using Nat.succ_lt_succ hi))
    refine ⟨v :: vals, ?_, by simp [h2], fun i hi => ?_⟩
    · rw [unwrapAll, h1]
      rfl
    · cases i with
      | zero => rfl
      | succ k =>
        have hk : k < t.length := by simpa using hi
        exact h3 k hk

theorem nodup_getD_ne (l : List Nat) (hn : l.Nodup) (i j : Nat) (hi : i < l.length)
    (hj : j < l.length) (hne : i ≠ j) : l.getD i 0 ≠ l.getD j 0 := by
  rw [List.getD_eq_getElem _ _ hi, List.getD_eq_getElem _ _ hj]
  intro heq
  exact hne (List.Nodup.getElem_inj_iff hn |>.mp heq)

theorem maskedInit_getD (mask : Nat → Bool) (p1 : List Nat) (i : Nat) (hi : i < p1.length) :
    (maskedInit mask p1).getD i none = if mask i then some (p1.getD i 0) else none := by
  unfold maskedInit
  have hlen : i < ((List.range p1.length).map
      (fun i => if mask i then some (p1.getD i 0) else none)).length := by
    simp [hi]
  rw [List.getD_eq_getElem _ _ hlen]
  simp

theorem maskedInit_childInv (mask : Nat → Bool) (p1 : List Nat) (hp1 : IsPermDeck p1) :
    ChildInv (maskedInit mask p1) := by
  have hlen : (maskedInit mask p1).length = 52 := by
    unfold maskedInit
    simp [hp1.1]
  have hl52 : p1.length = 52 := hp1.1
  refine ⟨hlen, ?_, ?_⟩
  · intro i1 i2 v h1 h2 hne e1 e2
    rw [maskedInit_getD mask p1 i1 (by omega)] at e1
    rw [maskedInit_getD mask p1 i2 (by omega)] at e2
    split_ifs at e1 e2
    have v1 : p1.getD i1 0 = v := Option.some.inj e1
    have v2 : p1.getD i2 0 = v := Option.some.inj e2
    exact nodup_getD_ne p1 hp1.2.1 i1 i2 (by omega) (by omega) hne (by rw [v1, v2])
  · intro k v hk e
    rw [maskedInit_getD mask p1 k (by omega)] at e
    split_ifs at e
    have hv : p1.getD k 0 = v := Option.some.inj e
    rw [← hv]
    refine hp1.2.2 _ ?_
    rw [List.getD_eq_getElem _ _ (by omega)]
    exact List.getElem_mem (by omega)

theorem maskedFill_perm (p1 p2 : List Nat) (hp1 : IsPermDeck p1) (hp2 : IsPermDeck p2)
    (mask : Nat → Bool) :
    ∃ c, unwrapAll (fillFromParent p2 (List.range p1.length) 0 (maskedInit mask p1)) = some c ∧
      IsPermDeck c := by
  have hl : p1.length = 52 := hp1.1
  have hci0 := maskedInit_childInv mask p1 hp1
  have hsi0 : ScanInv (maskedInit mask p1) p2 0 := fun j hj => by omega
  obtain ⟨r1, _, r3⟩ := fillFromParent_spec p2 hp2 (List.range p1.length) 0
    (maskedInit mask p1) hci0 hsi0 (fun i hi => by
      rw [List.mem_range] at hi
      omega)
  have hrlen : (fillFromParent p2 (List.range p1.length) 0 (maskedInit mask p1)).length = 52 :=
    r1.1
  have hfill : ∀ i, i < 52 →
      ((fillFromParent p2 (List.range p1.length) 0 (maskedInit mask p1)).getD i none).isSome := by
    intro i hi
    exact r3 i (List.mem_range.mpr (by omega))
  obtain ⟨vals, h1, h2, h3⟩ := unwrapAll_spec _ (fun i hi => hfill i (by omega))
  refine ⟨vals, h1, ?_, ?_, ?_⟩
  · omega
  · rw [List.nodup_iff_injective_get]
    rintro ⟨i, hi⟩ ⟨j, hj⟩ heq
    by_contra hne
    have hij : i ≠ j := fun h => hne (Fin.ext h)
    have g1 : some (vals.getD i 0) =
        (fillFromParent p2 (List.range p1.length) 0 (maskedInit mask p1)).getD i none :=
      h3 i (by omega)
    have g2 : some (vals.getD j 0) =
        (fillFromParent p2 (List.range p1.length) 0 (maskedInit mask p1)).getD j none :=
      h3 j (by omega)
    have hv : vals.getD i 0 = vals.getD j 0 := by
      rw [List.getD_eq_getElem _ _ hi, List.getD_eq_getElem _ _ hj]
      simpa using heq
    rw [hv] at g1
    exact r1.2.1 i j (vals.getD j 0) (by omega) (by omega) hij g1.symm g2.symm
  · intro c hc
    obtain ⟨k, hk, hkv⟩ := List.mem_iff_getElem.mp hc
    have g := h3 k (by omega)
    rw [List.getD_eq_getElem _ _ hk, hkv] at g
    exact r1.2.2 k c (by omega) g.symm

/-- C8: for every pair of parent decks that are permutations of {0..51},
two-point order crossover (for every pair of crossover points) and uniform
order crossover (for every sequence of coin flips) both succeed — no
position is ever left unfilled — and the child is again a permutation
of {0..51}. -/
theorem C8_crossover_permutation (p1 p2 : List Nat) (hp1 : IsPermDeck p1)
    (hp2 : IsPermDeck p2) :
    (∀ point1 point2, ∃ c, crossover point1 point2 p1 p2 = some c ∧ IsPermDeck c) ∧
    (∀ coins, ∃ c, uniformCrossover coins p1 p2 = some c ∧ IsPermDeck c) := by
  constructor
  · intro point1 point2
    exact maskedFill_perm p1 p2 hp1 hp2 _
  · intro coins
    exact maskedFill_perm p1 p2 hp1 hp2 coins

set_option maxRecDepth 10000 in
/-- Witness: crossing the canonical deck with its cut at 13, at crossover
points 5 and 20, produces a permutation child. -/
theorem C8_crossover_permutation_witness :
    IsPermDeck newDeckOrder ∧ IsPermDeck (cut newDeckOrder 13) ∧
    (∃ c, crossover 5 20 newDeckOrder (cut newDeckOrder 13) = some c ∧ IsPermDeck c) :=
  ⟨by decide, by decide,
    (C8_crossover_permutation newDeckOrder (cut newDeckOrder 13)
      (by decide) (by decide)).1 5 20⟩

theorem sum_map_ratCast (l : List (List Nat × Nat)) (g : List Nat × Nat → Nat) :
    (l.map (fun a => (g a : ℚ))).sum = ((l.map g).sum : ℚ) := by
  induction l with
  | nil => simp
  | cons x t ih => simp [ih]

theorem foldr_max_const (l : List Nat) (c : Nat) (hne : l ≠ []) (hall : ∀ v ∈ l, v = c) :
    l.foldr max 0 = c := by
  match l with
  | [] => exact absurd rfl hne
  | x :: t =>
    have hx : x = c := hall x (List.mem_cons_self x t)
    refine Nat.le_antisymm (foldr_max_le _ c (fun v hv => (hall v hv).le)) ?_
    exact hx ▸ le_foldr_max (x :: t) x (List.mem_cons_self x t)

theorem take_sorted_hi {lo hi : ℚ} (hlt : lo < hi) :
    ∀ (n : Nat) (S : List (List Nat × Nat × ℚ)),
      S.Sorted (fun a b => b.2.2 ≤ a.2.2) →
      (∀ t ∈ S, t.2.2 = lo ∨ t.2.2 = hi) →
      n ≤ S.countP (fun t => decide (t.2.2 = hi)) →
      ∀ t ∈ S.take n, t.2.2 = hi := by
  intro n
  induction n with
  | zero => intro S _ _ _ t ht; simp at ht
  | succ m ih =>
    intro S hs hd hc t ht
    match S with
    | [] => simp at ht
    | x :: S2 =>
      have hpc := List.pairwise_cons.mp hs
      by_cases hxv : x.2.2 = hi
      · rw [List.take_succ_cons] at ht
        rcases List.mem_cons.mp ht with rfl | h
        · exact hxv
        · have hcx : (x :: S2).countP (fun t => decide (t.2.2 = hi)) =
              S2.countP (fun t => decide (t.2.2 = hi)) + 1 :=
            List.countP_cons_of_pos _ _ (by simp [hxv])
          exact ih S2 hpc.2 (fun t ht => hd t (List.mem_cons_of_mem x ht))
            (by omega) t h
      · have hxlo : x.2.2 = lo := (hd x (List.mem_cons_self x S2)).resolve_right hxv
        have hz : S2.countP (fun t => decide (t.2.2 = hi)) = 0 := by
          rw [List.countP_eq_zero]
          intro y hy
          simp only [decide_eq_true_eq]
          intro hyv
          have hle := hpc.1 y hy
          rw [hyv, hxlo] at hle
          exact absurd hle (not_le.mpr hlt)
        have hcx : (x :: S2).countP (fun t => decide (t.2.2 = hi)) = 0 := by
          rw [List.countP_cons_of_neg _ _ (by simp [hxv]), hz]
        omega

theorem fitness_eval (x : List Nat × Nat) (pop : List (List Nat × Nat)) (hne : pop ≠ [])
    (hlen : pop.length = 45)
    (hsum : (pop.map (fun o => hamming x.1 o.1)).sum =
      if x.1 = newDeckOrder then 2184 else 2288)
    (hsc : if x.1 = newDeckOrder then x.2 = 40 else x.2 = 39) :
    diversityFitness x.2 (calculateDiversity x.1 pop) (1 / 2) =
      if x.1 = newDeckOrder then (2892 / 45 : ℚ) else 2899 / 45 := by
  unfold diversityFitness calculateDiversity
  rw [if_neg hne, sum_map_ratCast pop (fun o => hamming x.1 o.1), hsum, hlen]
  by_cases hx : x.1 = newDeckOrder
  · have h40 : x.2 = 40 := by simpa [hx] using hsc
    rw [if_pos hx, h40]
    rw [if_pos hx]
    norm_num
  · have h39 : x.2 = 39 := by simpa [hx] using hsc
    rw [if_neg hx, h39]
    rw [if_neg hx]
    norm_num

theorem newGenStagnant_ne_nil : newGenStagnant ≠ [] := by decide

theorem newGenStagnant_length : newGenStagnant.length = 45 := by decide

set_option maxRecDepth 10000 in
theorem newGenStagnant_scores :
    ∀ x ∈ newGenStagnant, if x.1 = newDeckOrder then x.2 = 40 else x.2 = 39 := by decide

set_option maxRecDepth 10000 in
theorem newGenStagnant_countP :
    newGenStagnant.countP (fun x => decide ¬(x.1 = newDeckOrder)) = 42 := by decide

theorem C6_core
    (hsum : ∀ x ∈ newGenStagnant,
      (newGenStagnant.map (fun o => hamming x.1 o.1)).sum =
        if x.1 = newDeckOrder then 2184 else 2288) :
    bestPopScore (nextGeneration popStagnant [] mutStagnant 31) = 39 := by
  have hng : nextGeneration popStagnant [] mutStagnant 31 =
      (((newGenStagnant.map (fun x =>
            (x.1, x.2,
              diversityFitness x.2 (calculateDiversity x.1 newGenStagnant) (1 / 2)))).insertionSort
          (fun a b => b.2.2 ≤ a.2.2)).map (fun t => (t.1, t.2.1))).take 30 := rfl
  rw [hng]
  set f : List Nat × Nat → List Nat × Nat × ℚ := fun x =>
    (x.1, x.2, diversityFitness x.2 (calculateDiversity x.1 newGenStagnant) (1 / 2)) with hf
  set S := (newGenStagnant.map f).insertionSort (fun a b => b.2.2 ≤ a.2.2) with hS
  haveI hTot : IsTotal (List Nat × Nat × ℚ) (fun a b => b.2.2 ≤ a.2.2) :=
    ⟨fun a b => le_total b.2.2 a.2.2⟩
  haveI hTrans : IsTrans (List Nat × Nat × ℚ) (fun a b => b.2.2 ≤ a.2.2) :=
    ⟨fun _ _ _ hab hbc => le_trans hbc hab⟩
  have hperm : S.Perm (newGenStagnant.map f) := List.perm_insertionSort _ _
  have hsort : S.Sorted (fun a b => b.2.2 ≤ a.2.2) := List.sorted_insertionSort _ _
  have hfit : ∀ x ∈ newGenStagnant,
      diversityFitness x.2 (calculateDiversity x.1 newGenStagnant) (1 / 2) =
        if x.1 = newDeckOrder then (2892 / 45 : ℚ) else 2899 / 45 := by
    intro x hx
    exact fitness_eval x newGenStagnant newGenStagnant_ne_nil newGenStagnant_length
      (hsum x hx) (newGenStagnant_scores x hx)
  have hdich : ∀ t ∈ S,
      (t.2.1 = 40 ∧ t.2.2 = (2892 / 45 : ℚ)) ∨ (t.2.1 = 39 ∧ t.2.2 = (2899 / 45 : ℚ)) := by
    intro t ht
    have htm : t ∈ newGenStagnant.map f := hperm.subset ht
    obtain ⟨x, hx, rfl⟩ := List.mem_map.mp htm
    have h1 := newGenStagnant_scores x hx
    have h2 := hfit x hx
    by_cases hxd : x.1 = newDeckOrder
    · left
      rw [if_pos hxd] at h1 h2
      exact ⟨h1, h2⟩
    · right
      rw [if_neg hxd] at h1 h2
      exact ⟨h1, h2⟩
  have hcount : 30 ≤ S.countP (fun t => decide (t.2.2 = (2899 / 45 : ℚ))) := by
    rw [hperm.countP_eq, List.countP_map]
    have hcongr : newGenStagnant.countP
          ((fun t : List Nat × Nat × ℚ => decide (t.2.2 = (2899 / 45 : ℚ))) ∘ f) =
        newGenStagnant.countP (fun x => decide ¬(x.1 = newDeckOrder)) := by
      apply List.countP_congr
      intro x hx
      have h2 := hfit x hx
      by_cases hxd : x.1 = newDeckOrder
      · rw [if_pos hxd] at h2
        rw [hxd] at h2
        simp only [Function.comp, hf, hxd, h2]
        norm_num
      · rw [if_neg hxd] at h2
        simp only [Function.comp, hf, h2, hxd]
        norm_num
    rw [hcongr, newGenStagnant_countP]
    norm_num
  have hhi : ∀ t ∈ S.take 30, t.2.2 = (2899 / 45 : ℚ) :=
    take_sorted_hi (by norm_num : (2892 / 45 : ℚ) < 2899 / 45) 30 S hsort
      (fun t ht => (hdich t ht).imp And.right And.right) hcount
  rw [← List.map_take]
  unfold bestPopScore
  rw [List.map_map]
  apply foldr_max_const
  · have hlenS : S.length = 45 := by
      rw [hperm.length_eq, List.length_map, newGenStagnant_length]
    have : ((S.take 30).map ((fun x : List Nat × Nat => x.2) ∘ fun t => (t.1, t.2.1))).length
        = 30 := by
      rw [List.length_map, List.length_take, hlenS]
      decide
    intro hcontra
    rw [hcontra] at this
    simp at this
  · intro v hv
    obtain ⟨s, hs, rfl⟩ := List.mem_map.mp hv
    have hsS : s ∈ S := List.take_subset 30 S hs
    have h3 := hhi s hs
    rcases hdich s hsS with ⟨_, hlo⟩ | ⟨h39, _⟩
    · rw [h3] at hlo
      norm_num at hlo
    · exact h39


theorem hamming_self (d : List Nat) : hamming d d = 0 := by
  unfold hamming
  induction d with
  | nil => rfl
  | cons x t ih => simpa [List.zip_cons_cons] using ih

theorem hamming_eq_length :
    ∀ a b : List Nat, a.length = b.length →
      (∀ i, i < a.length → a.getD i 0 ≠ b.getD i 0) → hamming a b = a.length := by
  intro a
  induction a with
  | nil => intro b _ _; rfl
  | cons x t ih =>
    intro b hlen hne
    match b with
    | [] => simp at hlen
    | y :: u =>
      have h0 : x ≠ y := hne 0 (by simp)
      have hxy : (x != y) = true := by simpa using h0
      have hsplit : ((x :: t).zip (y :: u)).filter (fun p => p.1 != p.2) =
          (x, y) :: ((t.zip u).filter (fun p => p.1 != p.2)) := by
        rw [List.zip_cons_cons]
        exact List.filter_cons_of_pos hxy
      have hih : hamming t u = t.length :=
        ih u (by simpa using hlen) (fun i hi => hne (i + 1) (by simpa using hi))
      unfold hamming at hih ⊢
      rw [hsplit, List.length_cons, hih, List.length_cons]

theorem cut_length (d : List Nat) (r : Nat) : (cut d r).length = d.length := by
  unfold cut
  rw [List.length_append, List.length_drop, List.length_take]
  omega

theorem cut_getD (d : List Nat) (r : Nat) (hr : r ≤ d.length) (i : Nat)
    (hi : i < d.length) : (cut d r).getD i 0 = d.getD ((i + r) % d.length) 0 := by
  have hrot : cut d r = d.rotate r := (List.rotate_eq_drop_append_take hr).symm
  have hi2 : i < (d.rotate r).length := by rw [List.length_rotate]; exact hi
  have hmod : (i + r) % d.length < d.length := Nat.mod_lt _ (by omega)
  rw [hrot, List.getD_eq_getElem _ _ hi2, List.getD_eq_getElem _ _ hmod]
  exact List.getElem_rotate d r i hi2

theorem hamming_cut_cut (d : List Nat) (hnd : d.Nodup) (r s : Nat)
    (hr : r < d.length) (hs : s < d.length) :
    hamming (cut d r) (cut d s) = if r = s then 0 else d.length := by
  by_cases hrs : r = s
  · rw [if_pos hrs, hrs]
    exact hamming_self _
  · rw [if_neg hrs]
    have hlen : (cut d r).length = (cut d s).length := by rw [cut_length, cut_length]
    have hres := hamming_eq_length (cut d r) (cut d s) hlen ?_
    · rw [hres, cut_length]
    · intro i hi
      rw [cut_length] at hi
      rw [cut_getD d r (by omega) i hi, cut_getD d s (by omega) i hi]
      have hm1 : (i + r) % d.length < d.length := Nat.mod_lt _ (by omega)
      have hm2 : (i + s) % d.length < d.length := Nat.mod_lt _ (by omega)
      apply nodup_getD_ne d hnd _ _ hm1 hm2
      intro heq
      have hmeq : r % d.length = s % d.length := Nat.ModEq.add_left_cancel' i heq
      rw [Nat.mod_eq_of_lt hr, Nat.mod_eq_of_lt hs] at hmeq
      exact hrs hmeq

set_option maxRecDepth 10000 in
/-- The per-member Hamming-distance sums over the stagnating generation:
rotations of a duplicate-free deck differ from each other and from the
deck at every position. -/
theorem newGenStagnant_hamming_sum :
    ∀ x ∈ newGenStagnant,
      (newGenStagnant.map (fun o => hamming x.1 o.1)).sum =
        if x.1 = newDeckOrder then 2184 else 2288 := by
  have hng : newGenStagnant =
      (List.replicate 3 0 ++ List.range' 28 15 ++ List.range' 1 27).map
        (fun r => (cut newDeckOrder r, if r = 0 then 40 else 39)) := by decide
  have h52 : newDeckOrder.length = 52 := by decide
  have hnd : newDeckOrder.Nodup := by decide
  have hmem52 : ∀ r ∈ List.replicate 3 0 ++ List.range' 28 15 ++ List.range' 1 27,
      r < 52 := by decide
  have hiff : ∀ r ∈ List.replicate 3 0 ++ List.range' 28 15 ++ List.range' 1 27,
      (cut newDeckOrder r = newDeckOrder ↔ r = 0) := by decide
  have hsums : ∀ r ∈ List.replicate 3 0 ++ List.range' 28 15 ++ List.range' 1 27,
      ((List.replicate 3 0 ++ List.range' 28 15 ++ List.range' 1 27).map
          (fun ro => if r = ro then 0 else 52)).sum =
        if r = 0 then 2184 else 2288 := by decide
  intro x hx
  rw [hng] at hx
  obtain ⟨rx, hrx, rfl⟩ := List.mem_map.mp hx
  rw [hng, List.map_map]
  have hcong : ∀ ro ∈ List.replicate 3 0 ++ List.range' 28 15 ++ List.range' 1 27,
      ((fun o : List Nat × Nat => hamming (cut newDeckOrder rx, if rx = 0 then 40 else 39).1 o.1) ∘
          fun r => (cut newDeckOrder r, if r = 0 then 40 else 39)) ro =
        (fun ro => if rx = ro then 0 else 52) ro := by
    intro ro hro
    simp only [Function.comp]
    rw [hamming_cut_cut newDeckOrder hnd rx ro
      (h52 ▸ hmem52 rx hrx) (h52 ▸ hmem52 ro hro), h52]
  rw [List.map_congr_left hcong, hsums rx hrx]
  by_cases hr0 : rx = 0
  · rw [if_pos hr0]
    have : cut newDeckOrder rx = newDeckOrder := (hiff rx hrx).mpr hr0
    rw [if_pos this]
  · rw [if_neg hr0]
    have : ¬(cut newDeckOrder rx = newDeckOrder) := fun h => hr0 ((hiff rx hrx).mp h)
    rw [if_neg this]

set_option maxRecDepth 10000 in
/-- C6 counterexample: on the stagnating population (three elite copies of
the canonical deck at fitness 40, 42 pairwise-distant rotations at
fitness 39) with stagnation 31, the diversity-adjusted sort ranks every
rotation above every elite, and truncation to population size 30 drops all
fitness-40 members: the best fitness falls from 40 to 39. -/
theorem C6_diversity_truncation_drops_best :
    bestPopScore popStagnant = 40 ∧
    bestPopScore (nextGeneration popStagnant [] mutStagnant 31) = 39 :=
  ⟨by decide, C6_core newGenStagnant_hamming_sum⟩

/-- Amended C6: in the raw-fitness regime (stagnation at most half the
threshold, so no diversity adjustment), the selection phase is monotone in
the best fitness: every member of the previous population enters the new
generation, the descending sort puts a maximal member first, and truncation
to 30 keeps it. -/
theorem C6_raw_sort_monotone (pop cross muts : List (List Nat × Nat)) (stag : Nat)
    (h : stag ≤ 15) :
    bestPopScore pop ≤ bestPopScore (nextGeneration pop cross muts stag) := by
  have hbr : nextGeneration pop cross muts stag =
      (((pop.take 3 ++ cross ++ muts ++ pop.drop 3).insertionSort
          (fun a b => a.2 ≤ b.2)).reverse).take 30 := by
    simp only [nextGeneration]
    rw [if_neg (by omega)]
  rw [hbr]
  set newGen := pop.take 3 ++ cross ++ muts ++ pop.drop 3 with hNG
  set desc := (newGen.insertionSort (fun a b => a.2 ≤ b.2)).reverse with hD
  haveI hTot : IsTotal (List Nat × Nat) (fun a b => a.2 ≤ b.2) :=
    ⟨fun a b => le_total a.2 b.2⟩
  haveI hTrans : IsTrans (List Nat × Nat) (fun a b => a.2 ≤ b.2) :=
    ⟨fun _ _ _ hab hbc => le_trans hab hbc⟩
  have hPerm : desc.Perm newGen :=
    (List.reverse_perm _).trans (List.perm_insertionSort _ _)
  have hsAsc : (newGen.insertionSort (fun a b => a.2 ≤ b.2)).Sorted
      (fun a b => a.2 ≤ b.2) := List.sorted_insertionSort _ _
  have hsDesc : desc.Pairwise (fun a b => b.2 ≤ a.2) := by
    rw [hD]
    exact List.pairwise_reverse.mpr hsAsc
  have hpopsub : ∀ x ∈ pop, x ∈ newGen := by
    intro x hx
    have hx2 : x ∈ pop.take 3 ++ pop.drop 3 := by
      rw [List.take_append_drop]
      exact hx
    rcases List.mem_append.mp hx2 with h1 | h1
    · simp [hNG, List.mem_append, h1]
    · simp [hNG, List.mem_append, h1]
  match hdesc : desc with
  | [] =>
    have hng_nil : newGen = [] := (hdesc ▸ hPerm).nil_eq.symm
    have hpop : pop = [] := by
      by_contra hne
      obtain ⟨x, hx⟩ := List.exists_mem_of_ne_nil pop hne
      have := hpopsub x hx
      rw [hng_nil] at this
      exact absurd this (List.not_mem_nil x)
    rw [hpop]
    exact Nat.zero_le _
  | hd :: tl =>
    have hdom : ∀ x ∈ newGen, x.2 ≤ hd.2 := by
      intro x hx
      have hxd : x ∈ desc := hPerm.mem_iff.mpr hx
      rw [hdesc] at hxd
      rcases List.mem_cons.mp hxd with rfl | hmem
      · exact le_refl _
      · exact (List.pairwise_cons.mp (hdesc ▸ hsDesc)).1 x hmem
    have h1 : bestPopScore pop ≤ hd.2 := by
      apply foldr_max_le
      intro v hv
      obtain ⟨x, hx, rfl⟩ := List.mem_map.mp hv
      exact hdom x (hpopsub x hx)
    have h2 : hd.2 ≤ bestPopScore ((hd :: tl).take 30) := by
      rw [List.take_succ_cons]
      exact le_foldr_max _ hd.2 (List.mem_map.mpr ⟨hd, List.mem_cons_self hd _, rfl⟩)
    exact le_trans h1 h2

/-- Witness: the raw-sort monotonicity at the stagnating population with
stagnation 0. -/
theorem C6_raw_sort_monotone_witness :
    0 ≤ 15 ∧
      bestPopScore popStagnant ≤
        bestPopScore (nextGeneration popStagnant [] mutStagnant 0) :=
  ⟨by decide, C6_raw_sort_monotone popStagnant [] mutStagnant 0 (by decide)⟩

theorem drawSeq?_spec :
    ∀ (k : Nat) (r : List Nat),
      drawSeq? k r.reverse =
        if k ≤ r.length then some (r.take k, (r.drop k).reverse) else none := by
  intro k
  induction k with
  | zero =>
    intro r
    rw [if_pos (Nat.zero_le _)]
    simp [drawSeq?]
  | succ m ih =>
    intro r
    match r with
    | [] =>
      rw [if_neg (by simp)]
      simp [drawSeq?, draw?]
    | c :: t =>
      have hdraw : draw? ((c :: t).reverse) = some (c, t.reverse) := by
        unfold draw?
        rw [List.reverse_cons, List.getLast?_concat, List.dropLast_concat]
        rfl
      unfold drawSeq?
      rw [hdraw]
      show (drawSeq? m t.reverse).map _ = _
      rw [ih t]
      by_cases hk : m ≤ t.length
      · rw [if_pos hk, if_pos (by simpa using Nat.succ_le_succ hk)]
        simp
      · rw [if_neg hk, if_neg (by simp; omega)]
        rfl

theorem getD_take_lt (l : List Nat) (k i : Nat) (hik : i < k) :
    (l.take k).getD i 0 = l.getD i 0 := by
  rw [List.getD_eq_getElem?_getD, List.getD_eq_getElem?_getD, List.getElem?_take]
  rw [if_pos hik]

theorem getD_drop_add (l : List Nat) (k i : Nat) :
    (l.drop k).getD i 0 = l.getD (k + i) 0 := by
  rw [List.getD_eq_getElem?_getD, List.getD_eq_getElem?_getD, List.getElem?_drop]

theorem dealARound?_eq (n : Nat) (deck : List Nat) :
    dealARound? n deck =
      if 2 * n + 8 ≤ deck.length then some (dealARound n deck) else none := by
  have h1 := drawSeq?_spec (2 * n) deck.reverse
  rw [List.reverse_reverse, List.length_reverse] at h1
  by_cases hA : 2 * n ≤ deck.length
  · rw [if_pos hA] at h1
    unfold dealARound?
    rw [h1]
    show (drawSeq? 8 ((deck.reverse.drop (2 * n)).reverse)).map _ = _
    have h2 := drawSeq?_spec 8 (deck.reverse.drop (2 * n))
    have hdl : (deck.reverse.drop (2 * n)).length = deck.length - 2 * n := by
      rw [List.length_drop, List.length_reverse]
    by_cases hB : 2 * n + 8 ≤ deck.length
    · rw [if_pos (by omega)] at h2
      rw [h2, if_pos hB]
      show some _ = some (dealARound n deck)
      unfold dealARound
      refine congrArg some ?_
      refine congrArg₂ Game.mk ?_ ?_
      · refine List.map_congr_left ?_
        intro p hp
        rw [List.mem_range] at hp
        rw [getD_take_lt _ _ _ (by omega), getD_take_lt _ _ _ (by omega)]
      · simp only [getD_take_lt _ 8 1 (by omega), getD_take_lt _ 8 2 (by omega),
          getD_take_lt _ 8 3 (by omega), getD_take_lt _ 8 5 (by omega),
          getD_take_lt _ 8 7 (by omega), getD_drop_add]
    · rw [if_neg (by omega)] at h2
      rw [h2, if_neg hB]
      rfl
  · rw [if_neg hA] at h1
    unfold dealARound?
    rw [h1, if_neg (by omega)]
    rfl

theorem positionMargin?_eq_cutMargin? (n : Nat) (deck : List Nat) (cutPos : Nat)
    (h1 : cutPos ≤ deck.length) (h2 : 2 * n + 8 ≤ deck.length) :
    positionMargin? n deck cutPos = cutMargin? n deck cutPos := by
  unfold positionMargin? cut?
  rw [if_pos h1]
  show (dealARound? n (cut deck cutPos)).bind _ = _
  rw [dealARound?_eq, if_pos (by rw [cut_length]; omega)]
  rfl

theorem mapM_congr (f g : Nat → Option Int) :
    ∀ (l : List Nat), (∀ a ∈ l, f a = g a) → l.mapM f = l.mapM g := by
  intro l
  induction l with
  | nil => intro _; rfl
  | cons x t ih =>
    intro h
    rw [List.mapM_cons, List.mapM_cons, h x (List.mem_cons_self x t),
      ih (fun a ha => h a (List.mem_cons_of_mem x ha))]

theorem hybridScoreFull?_eq (n : Nat) (deck : List Nat) (real : Bool)
    (hlen : deck.length = 52) (hn : 2 * n + 8 ≤ 52) :
    hybridScoreFull? n deck real = hybridScore? n deck real := by
  simp only [hybridScoreFull?, hybridScore?]
  have hpos : ∀ k ∈ (if real then List.range' 5 42 else List.range 52), k ≤ 52 := by
    cases real
    · intro k hk
      rw [if_neg (by simp)] at hk
      rw [List.mem_range] at hk
      omega
    · intro k hk
      rw [if_pos rfl] at hk
      rw [List.mem_range'_1] at hk
      omega
  rw [mapM_congr (positionMargin? n deck) (cutMargin? n deck) _
    (fun k hk => positionMargin?_eq_cutMargin? n deck k
      (by rw [hlen]; exact hpos k hk) (by omega))]

theorem positionMargin?_one (deck : List Nat) (k : Nat) (hlen : deck.length = 52)
    (hk : k ≤ 52) : positionMargin? 1 deck k = none := by
  rw [positionMargin?_eq_cutMargin? 1 deck k (by omega) (by omega)]
  exact cutMargin?_one deck k

theorem hybridScoreFull?_one (deck : List Nat) (real : Bool) (hlen : deck.length = 52) :
    hybridScoreFull? 1 deck real = none := by
  rw [hybridScoreFull?_eq 1 deck real hlen (by omega)]
  exact hybridScore?_one deck real

theorem positionMargin?_isSome (n : Nat) (hn : 2 ≤ n) (hn2 : n ≤ 22) (deck : List Nat)
    (k : Nat) (hlen : deck.length = 52) (hk : k ≤ 52) :
    (positionMargin? n deck k).isSome := by
  rw [positionMargin?_eq_cutMargin? n deck k (by omega) (by omega)]
  exact cutMargin?_isSome n hn deck k

theorem hybridScoreFull?_isSome (n : Nat) (hn : 2 ≤ n) (hn2 : n ≤ 22) (deck : List Nat)
    (real : Bool) (hlen : deck.length = 52) :
    (hybridScoreFull? n deck real).isSome := by
  rw [hybridScoreFull?_eq n deck real hlen (by omega)]
  exact hybridScore?_isSome n hn deck real

set_option maxRecDepth 10000 in
/-- C10 counterexample: `num_players ≥ 2` alone does not make `hybrid_score`
and `position_margin` total — with 23 players the deal draws
`2·23 + 8 = 54 > 52` cards off the deck and `pop().unwrap()` panics, and a
cut at position 53 of a 52-card deck panics in `drain(0..53)`. -/
theorem C10_not_total_counterexample :
    (2 ≤ 23 ∧ hybridScoreFull? 23 newDeckOrder false = none) ∧
      (2 ≤ 2 ∧ positionMargin? 2 newDeckOrder 53 = none) := by decide

/-- C10 (amended): with `cut`'s out-of-range `drain` panic and `draw`'s
deck-exhaustion panic modelled, on a 52-card deck `position_margin` and
`hybrid_score` are fatal for `num_players = 1` through the `unwrap` over the
empty opponent range `1..num_players`, and they are total under
`2 ≤ num_players ≤ 22` (the deal consumes `2·n + 8 ≤ 52` cards) with an
in-range cut position. -/
theorem C10_opponent_range_bounded (n : Nat) (deck : List Nat) (real : Bool)
    (hlen : deck.length = 52) :
    (∀ k, k ≤ 52 → positionMargin? 1 deck k = none) ∧
    hybridScoreFull? 1 deck real = none ∧
    (2 ≤ n → n ≤ 22 →
      (∀ k, k ≤ 52 → (positionMargin? n deck k).isSome) ∧
      (hybridScoreFull? n deck real).isSome) :=
  ⟨fun k hk => positionMargin?_one deck k hlen hk,
   hybridScoreFull?_one deck real hlen,
   fun hn hn2 =>
     ⟨fun k hk => positionMargin?_isSome n hn hn2 deck k hlen hk,
      hybridScoreFull?_isSome n hn hn2 deck real hlen⟩⟩

/-- C10 witness: the canonical deck with two players over the total cut
range. -/
theorem C10_opponent_range_bounded_witness :
    newDeckOrder.length = 52 ∧ 2 ≤ 2 ∧ (2 : Nat) ≤ 22 ∧
      ((∀ k, k ≤ 52 → positionMargin? 1 newDeckOrder k = none) ∧
        hybridScoreFull? 1 newDeckOrder false = none ∧
        ((∀ k, k ≤ 52 → (positionMargin? 2 newDeckOrder k).isSome) ∧
          (hybridScoreFull? 2 newDeckOrder false).isSome)) :=
  ⟨by decide, by decide, by decide,
   (C10_opponent_range_bounded 2 newDeckOrder false (by decide)).1,
   (C10_opponent_range_bounded 2 newDeckOrder false (by decide)).2.1,
   (C10_opponent_range_bounded 2 newDeckOrder false (by decide)).2.2 (by decide) (by decide)⟩

end PokerSolver
